import Mathlib

/-!
Verification of the restore orchestrator of the `br` backup/restore tool.

The Go sources are shallowly embedded: structs become structures, loops with
mutable maps become recursions with explicit accumulators, goroutine/channel
code becomes explicit step relations over a state type driven by a schedule,
and external collaborators (PD client, file importer, SQL session, checksum
executor) become oracle parameters.
-/

namespace BR

/-! ### Data model for DDL jobs (`model.Job`, `model.DBInfo`, `model.TableInfo`)

Embeds the fields of `parser/model` actually read by `FilterDDLJobs` in
`src/unnamed/part_000`: a job's `SchemaID`, `TableID`, and its
`BinlogInfo.SchemaVersion` / `BinlogInfo.DBInfo` / `BinlogInfo.TableInfo`.
Names (`model.CIStr.String()`) are plain strings; int64 ids are `Int`. -/

structure DBInfo where
  id : Int
  name : String
  deriving DecidableEq, Repr

structure TableInfo where
  id : Int
  name : String
  autoIncID : Int
  deriving DecidableEq, Repr

structure BinlogInfo where
  schemaVersion : Int
  dbInfo : Option DBInfo
  tableInfo : Option TableInfo
  deriving DecidableEq, Repr

structure Job where
  schemaID : Int
  tableID : Int
  binlog : BinlogInfo
  deriving DecidableEq, Repr

/-- Embeds `utils.Table` as read by `FilterDDLJobs` / `DB.CreateTable`:
the table's backup-side database info and table info. -/
structure Table where
  db : DBInfo
  info : TableInfo
  deriving DecidableEq, Repr

/-! ### The descending sort on schema version

`FilterDDLJobs` first sorts `allDDLJobs` descending by
`BinlogInfo.SchemaVersion` (`sort.Slice` with `>`).  We embed it as a
deterministic stable insertion sort; on histories with pairwise-distinct
versions (the data model guarantees versions are a monotonic counter) the
descending order is unique, so this agrees with the Go sort. -/

def jobsGE (a b : Job) : Prop :=
  b.binlog.schemaVersion ≤ a.binlog.schemaVersion

instance : DecidableRel jobsGE := fun a b =>
  inferInstanceAs (Decidable (b.binlog.schemaVersion ≤ a.binlog.schemaVersion))

instance : IsTotal Job jobsGE :=
  ⟨fun a b => le_total b.binlog.schemaVersion a.binlog.schemaVersion⟩

instance : IsTrans Job jobsGE :=
  ⟨fun _ _ _ h1 h2 => le_trans h2 h1⟩

def sortJobsDesc (l : List Job) : List Job :=
  List.insertionSort jobsGE l

/-! ### The per-object alias-set scans of `FilterDDLJobs`

The Go loops keep two mutable membership maps (`dbIDs`/`dbNames`,
`tableIDs`/`tableNames`) and append selected jobs to `ddlJobs`.  We pass the
two membership sets explicitly (as lists, used only through `∈`). -/

/-- Embeds the database loop body of `FilterDDLJobs`
(src/unnamed/part_000 lines 157-167): a job with `BinlogInfo.DBInfo ≠ nil`
is selected when `dbIDs[job.SchemaID]` or
`dbNames[job.BinlogInfo.DBInfo.Name]`; selecting it marks `job.SchemaID`
and the resulting name. -/
def dbSelFrom (ids : List Int) (names : List String) : List Job → List Job
  | [] => []
  | j :: l =>
    match j.binlog.dbInfo with
    | none => dbSelFrom ids names l
    | some di =>
      if j.schemaID ∈ ids ∨ di.name ∈ names then
        j :: dbSelFrom (j.schemaID :: ids) (di.name :: names) l
      else dbSelFrom ids names l

/-- Embeds the table loop body of `FilterDDLJobs`
(src/unnamed/part_000 lines 175-185): a job with
`BinlogInfo.TableInfo ≠ nil` is selected when `tableIDs[job.TableID]` or
`tableNames[resulting name]`; selecting it marks `job.TableID`, the
resulting id `job.BinlogInfo.TableInfo.ID` (truncate may change the id),
and the resulting name. -/
def tSelFrom (ids : List Int) (names : List String) : List Job → List Job
  | [] => []
  | j :: l =>
    match j.binlog.tableInfo with
    | none => tSelFrom ids names l
    | some ti =>
      if j.tableID ∈ ids ∨ ti.name ∈ names then
        j :: tSelFrom (ti.id :: j.tableID :: ids) (ti.name :: names) l
      else tSelFrom ids names l

/-- Embeds `getDatabases` (src/unnamed/part_000 lines 190-199):
deduplicates the tables' databases by id, keeping first occurrence order. -/
def getDatabasesGo (seen : List Int) : List Table → List DBInfo
  | [] => []
  | t :: ts =>
    if t.db.id ∈ seen then getDatabasesGo seen ts
    else t.db :: getDatabasesGo (t.db.id :: seen) ts

def getDatabases (tables : List Table) : List DBInfo :=
  getDatabasesGo [] tables

/-- Embeds `FilterDDLJobs` (src/unnamed/part_000 lines 141-188): sort the
history descending by schema version, then run the database alias-set scan
for each distinct target database (seeded with its id and name) and the
table alias-set scan for each target table (seeded with its id and name),
appending all selections. -/
def FilterDDLJobs (allDDLJobs : List Job) (tables : List Table) : List Job :=
  let sorted := sortJobsDesc allDDLJobs
  ((getDatabases tables).map (fun d => dbSelFrom [d.id] [d.name] sorted)).flatten
    ++ (tables.map (fun t => tSelFrom [t.info.id] [t.info.name] sorted)).flatten

/-! ### The claim-side variant of the filter (for claim C3)

Claim C3 states that selecting an event extends both alias sets with the
event's RESULTING identifier and name.  The following definitions follow
that wording (selection adds `BinlogInfo.DBInfo.ID` resp.
`BinlogInfo.TableInfo.ID` and the resulting name, nothing else), to be
compared with the source embedding above. -/

def dbSelFromSpec (ids : List Int) (names : List String) : List Job → List Job
  | [] => []
  | j :: l =>
    match j.binlog.dbInfo with
    | none => dbSelFromSpec ids names l
    | some di =>
      if j.schemaID ∈ ids ∨ di.name ∈ names then
        j :: dbSelFromSpec (di.id :: ids) (di.name :: names) l
      else dbSelFromSpec ids names l

def tSelFromSpec (ids : List Int) (names : List String) : List Job → List Job
  | [] => []
  | j :: l =>
    match j.binlog.tableInfo with
    | none => tSelFromSpec ids names l
    | some ti =>
      if j.tableID ∈ ids ∨ ti.name ∈ names then
        j :: tSelFromSpec (ti.id :: ids) (ti.name :: names) l
      else tSelFromSpec ids names l

/-- Claim C3's wording of the filter: same selection condition and walk
order as the source, but alias sets extended with the resulting identifier
and name only. -/
def FilterDDLJobsSpec (allDDLJobs : List Job) (tables : List Table) : List Job :=
  let sorted := sortJobsDesc allDDLJobs
  ((getDatabases tables).map (fun d => dbSelFromSpec [d.id] [d.name] sorted)).flatten
    ++ (tables.map (fun t => tSelFromSpec [t.info.id] [t.info.name] sorted)).flatten

/-! ### Alias-set characterization of the scans (claims C3 and C9) -/

/-- Identifiers contributed to the database alias set by a list of selected
jobs: each selected job marks its source identifier `SchemaID`. -/
def dbIdsOf : List Job → List Int
  | [] => []
  | j :: l => j.schemaID :: dbIdsOf l

/-- Names contributed to the database alias set by a list of selected jobs:
each selected job marks its resulting name `BinlogInfo.DBInfo.Name`. -/
def dbNamesOf : List Job → List String
  | [] => []
  | j :: l =>
    match j.binlog.dbInfo with
    | none => dbNamesOf l
    | some di => di.name :: dbNamesOf l

/-- Identifiers contributed to the table alias set by a list of selected
jobs: each selected job marks its source identifier `TableID` and its
resulting identifier `BinlogInfo.TableInfo.ID`. -/
def tIdsOf : List Job → List Int
  | [] => []
  | j :: l =>
    match j.binlog.tableInfo with
    | none => j.tableID :: tIdsOf l
    | some ti => ti.id :: j.tableID :: tIdsOf l

/-- Names contributed to the table alias set by a list of selected jobs:
each selected job marks its resulting name `BinlogInfo.TableInfo.Name`. -/
def tNamesOf : List Job → List String
  | [] => []
  | j :: l =>
    match j.binlog.tableInfo with
    | none => tNamesOf l
    | some ti => ti.name :: tNamesOf l

/-- Selection condition of the database scan: the event is a database event
and its source identifier or resulting name is already in the alias sets. -/
def dbHitB (ids : List Int) (names : List String) (j : Job) : Bool :=
  match j.binlog.dbInfo with
  | none => false
  | some di => decide (j.schemaID ∈ ids) || decide (di.name ∈ names)

/-- Selection condition of the table scan: the event is a table event and
its source identifier or resulting name is already in the alias sets. -/
def tHitB (ids : List Int) (names : List String) (j : Job) : Bool :=
  match j.binlog.tableInfo with
  | none => false
  | some ti => decide (j.tableID ∈ ids) || decide (ti.name ∈ names)

theorem dbHitB_congr {ids1 ids2 : List Int} {names1 names2 : List String}
    (j : Job) (h1 : ∀ x : Int, x ∈ ids1 ↔ x ∈ ids2)
    (h2 : ∀ s : String, s ∈ names1 ↔ s ∈ names2) :
    dbHitB ids1 names1 j = dbHitB ids2 names2 j := by
  cases hj : j.binlog.dbInfo <;> simp [dbHitB, hj, h1, h2]

theorem tHitB_congr {ids1 ids2 : List Int} {names1 names2 : List String}
    (j : Job) (h1 : ∀ x : Int, x ∈ ids1 ↔ x ∈ ids2)
    (h2 : ∀ s : String, s ∈ names1 ↔ s ∈ names2) :
    tHitB ids1 names1 j = tHitB ids2 names2 j := by
  cases hj : j.binlog.tableInfo <;> simp [tHitB, hj, h1, h2]

theorem dbSelFrom_append (l : List Job) :
    ∀ (ids : List Int) (names : List String) (j : Job),
    dbSelFrom ids names (l ++ [j]) =
      dbSelFrom ids names l ++
        (if dbHitB (ids ++ dbIdsOf (dbSelFrom ids names l))
            (names ++ dbNamesOf (dbSelFrom ids names l)) j then [j] else []) := by
  induction l with
  | nil =>
    intro ids names j
    simp only [List.nil_append, dbSelFrom, dbIdsOf, dbNamesOf, List.append_nil]
    cases hj : j.binlog.dbInfo with
    | none => simp [dbHitB, hj]
    | some di =>
      simp only [dbHitB, hj]
      by_cases hc : j.schemaID ∈ ids ∨ di.name ∈ names
      · rw [if_pos hc, if_pos (by simpa using hc)]
      · rw [if_neg hc, if_neg (by simpa using hc)]
  | cons x l ih =>
    intro ids names j
    cases hx : x.binlog.dbInfo with
    | none =>
      simp only [List.cons_append, dbSelFrom, hx]
      exact ih ids names j
    | some dx =>
      simp only [List.cons_append, dbSelFrom, hx]
      by_cases hc : x.schemaID ∈ ids ∨ dx.name ∈ names
      · rw [if_pos hc, if_pos hc]
        simp only [List.append_eq]
        rw [ih]
        simp only [dbIdsOf, dbNamesOf, hx, List.cons_append]
        have heq : ∀ sel : List Job,
            dbHitB (x.schemaID :: (ids ++ dbIdsOf sel))
              (dx.name :: (names ++ dbNamesOf sel)) j
            = dbHitB (ids ++ x.schemaID :: dbIdsOf sel)
              (names ++ dx.name :: dbNamesOf sel) j :=
          fun sel => dbHitB_congr j
            (fun y => by simp only [List.mem_append, List.mem_cons]; tauto)
            (fun s => by simp only [List.mem_append, List.mem_cons]; tauto)
        simp only [heq]
      · rw [if_neg hc, if_neg hc]
        simp only [List.append_eq]
        exact ih ids names j

theorem tSelFrom_append (l : List Job) :
    ∀ (ids : List Int) (names : List String) (j : Job),
    tSelFrom ids names (l ++ [j]) =
      tSelFrom ids names l ++
        (if tHitB (ids ++ tIdsOf (tSelFrom ids names l))
            (names ++ tNamesOf (tSelFrom ids names l)) j then [j] else []) := by
  induction l with
  | nil =>
    intro ids names j
    simp only [List.nil_append, tSelFrom, tIdsOf, tNamesOf, List.append_nil]
    cases hj : j.binlog.tableInfo with
    | none => simp [tHitB, hj]
    | some ti =>
      simp only [tHitB, hj]
      by_cases hc : j.tableID ∈ ids ∨ ti.name ∈ names
      · rw [if_pos hc, if_pos (by simpa using hc)]
      · rw [if_neg hc, if_neg (by simpa using hc)]
  | cons x l ih =>
    intro ids names j
    cases hx : x.binlog.tableInfo with
    | none =>
      simp only [List.cons_append, tSelFrom, hx]
      exact ih ids names j
    | some tx =>
      simp only [List.cons_append, tSelFrom, hx]
      by_cases hc : x.tableID ∈ ids ∨ tx.name ∈ names
      · rw [if_pos hc, if_pos hc]
        simp only [List.append_eq]
        rw [ih]
        simp only [tIdsOf, tNamesOf, hx, List.cons_append]
        have heq : ∀ sel : List Job,
            tHitB (tx.id :: x.tableID :: (ids ++ tIdsOf sel))
              (tx.name :: (names ++ tNamesOf sel)) j
            = tHitB (ids ++ tx.id :: x.tableID :: tIdsOf sel)
              (names ++ tx.name :: tNamesOf sel) j :=
          fun sel => tHitB_congr j
            (fun y => by simp only [List.mem_append, List.mem_cons]; tauto)
            (fun s => by simp only [List.mem_append, List.mem_cons]; tauto)
        simp only [heq]
      · rw [if_neg hc, if_neg hc]
        simp only [List.append_eq]
        exact ih ids names j

/-- Claim C3 (amended): the schema-history filter computes an alias-set
closure per target object.  The identifier and name sets are seeded from
the object's identity in the restore target; walking the (descending
sorted) event history, an event is selected for an object exactly when its
source identifier or resulting name is already in the object's alias sets.
Selection extends the name set with the event's resulting name; it extends
the identifier set with the event's SOURCE identifier for database events,
and with both the source and the resulting identifier for table events
(the claim's original wording — extension with the resulting identifier
and name for both kinds — fails on the database scan, see the
counterexample). -/
theorem filterDDLJobs_alias_closure :
    (∀ (ids : List Int) (names : List String) (l : List Job) (j : Job),
      dbSelFrom ids names (l ++ [j]) = dbSelFrom ids names l ++
        (if dbHitB (ids ++ dbIdsOf (dbSelFrom ids names l))
            (names ++ dbNamesOf (dbSelFrom ids names l)) j then [j] else []))
    ∧ (∀ (ids : List Int) (names : List String) (l : List Job) (j : Job),
      tSelFrom ids names (l ++ [j]) = tSelFrom ids names l ++
        (if tHitB (ids ++ tIdsOf (tSelFrom ids names l))
            (names ++ tNamesOf (tSelFrom ids names l)) j then [j] else []))
    ∧ (∀ (allDDLJobs : List Job) (tables : List Table),
      FilterDDLJobs allDDLJobs tables =
        ((getDatabases tables).map
          (fun d => dbSelFrom [d.id] [d.name] (sortJobsDesc allDDLJobs))).flatten ++
        (tables.map
          (fun t => tSelFrom [t.info.id] [t.info.name] (sortJobsDesc allDDLJobs))).flatten) :=
  ⟨fun ids names l j => dbSelFrom_append l ids names j,
   fun ids names l j => tSelFrom_append l ids names j,
   fun _ _ => rfl⟩

/-- Claim C3, counterexample: the database scan extends the identifier
alias set with the event's source identifier (`job.SchemaID`), not with
its resulting identifier (`job.BinlogInfo.DBInfo.ID`) as the claim states.
Target database id 100 named `a`; the version-2 event (source id 5,
resulting id 7, resulting name `a`) is selected by name; under the claim's
rule the version-1 event with source id 7 would then be selected as well,
but the code does not select it. -/
theorem filterDDLJobs_resulting_id_cex :
    FilterDDLJobs
      [⟨5, 0, ⟨2, some ⟨7, "a"⟩, none⟩⟩, ⟨7, 0, ⟨1, some ⟨7, "b"⟩, none⟩⟩]
      [⟨⟨100, "a"⟩, ⟨50, "t", 0⟩⟩]
    ≠ FilterDDLJobsSpec
      [⟨5, 0, ⟨2, some ⟨7, "a"⟩, none⟩⟩, ⟨7, 0, ⟨1, some ⟨7, "b"⟩, none⟩⟩]
      [⟨⟨100, "a"⟩, ⟨50, "t", 0⟩⟩] := by
  decide

/-! ### Monotonicity of the history filter under history growth (claim C9) -/

theorem orderedInsert_front {j : Job} :
    ∀ {t : List Job}, (∀ y ∈ t, jobsGE j y) →
    List.orderedInsert jobsGE j t = j :: t
  | [], _ => rfl
  | y :: ys, h => by
    simp only [List.orderedInsert, if_pos (h y (List.mem_cons_self y ys))]

theorem filter_orderedInsert (keep : Job → Bool) (j : Job) :
    ∀ s : List Job, List.Sorted jobsGE s →
    (List.orderedInsert jobsGE j s).filter keep =
      if keep j then List.orderedInsert jobsGE j (s.filter keep)
      else s.filter keep := by
  intro s
  induction s with
  | nil =>
    intro _
    cases hk : keep j <;> simp [List.orderedInsert, List.filter_cons, hk]
  | cons x xs ih =>
    intro hs
    have hxs : List.Sorted jobsGE xs := hs.of_cons
    have hxall : ∀ y ∈ xs, jobsGE x y := List.rel_of_sorted_cons hs
    by_cases hjx : jobsGE j x
    · have hall : ∀ y ∈ (x :: xs).filter keep, jobsGE j y := by
        intro y hy
        have hy' := List.mem_of_mem_filter hy
        rcases List.mem_cons.mp hy' with rfl | hy''
        · exact hjx
        · exact le_trans (hxall y hy'') hjx
      rw [List.orderedInsert, if_pos hjx]
      cases hk : keep j
      · simp [List.filter_cons, hk]
      · rw [orderedInsert_front hall]
        simp [List.filter_cons, hk]
    · rw [List.orderedInsert, if_neg hjx]
      cases hk : keep x
      · simp only [List.filter_cons, hk, cond_false, if_neg, Bool.false_eq_true]
        exact ih hxs
      · simp only [List.filter_cons, hk, cond_true, if_pos]
        rw [ih hxs]
        cases hk2 : keep j
        · simp
        · simp only [if_pos]
          rw [List.orderedInsert, if_neg hjx]

theorem filter_sortJobsDesc (keep : Job → Bool) :
    ∀ l : List Job, (sortJobsDesc l).filter keep = sortJobsDesc (l.filter keep) := by
  intro l
  induction l with
  | nil => rfl
  | cons x xs ih =>
    show (List.orderedInsert jobsGE x (sortJobsDesc xs)).filter keep = _
    rw [filter_orderedInsert keep x (sortJobsDesc xs)
      (List.sorted_insertionSort jobsGE xs)]
    cases hk : keep x
    · simp only [List.filter_cons, hk, ih]
      rfl
    · simp only [List.filter_cons, hk, ih]
      rfl

theorem mem_of_mem_dbSelFrom :
    ∀ (l : List Job) (ids : List Int) (names : List String) {j : Job},
    j ∈ dbSelFrom ids names l → j ∈ l := by
  intro l
  induction l with
  | nil =>
    intro ids names j h
    simp [dbSelFrom] at h
  | cons x l ih =>
    intro ids names j h
    cases hx : x.binlog.dbInfo with
    | none =>
      simp only [dbSelFrom, hx] at h
      exact List.mem_cons_of_mem x (ih ids names h)
    | some dx =>
      simp only [dbSelFrom, hx] at h
      by_cases hc : x.schemaID ∈ ids ∨ dx.name ∈ names
      · rw [if_pos hc] at h
        rcases List.mem_cons.mp h with rfl | h'
        · exact List.mem_cons_self j l
        · exact List.mem_cons_of_mem x (ih _ _ h')
      · rw [if_neg hc] at h
        exact List.mem_cons_of_mem x (ih ids names h)

theorem mem_of_mem_tSelFrom :
    ∀ (l : List Job) (ids : List Int) (names : List String) {j : Job},
    j ∈ tSelFrom ids names l → j ∈ l := by
  intro l
  induction l with
  | nil =>
    intro ids names j h
    simp [tSelFrom] at h
  | cons x l ih =>
    intro ids names j h
    cases hx : x.binlog.tableInfo with
    | none =>
      simp only [tSelFrom, hx] at h
      exact List.mem_cons_of_mem x (ih ids names h)
    | some tx =>
      simp only [tSelFrom, hx] at h
      by_cases hc : x.tableID ∈ ids ∨ tx.name ∈ names
      · rw [if_pos hc] at h
        rcases List.mem_cons.mp h with rfl | h'
        · exact List.mem_cons_self j l
        · exact List.mem_cons_of_mem x (ih _ _ h')
      · rw [if_neg hc] at h
        exact List.mem_cons_of_mem x (ih ids names h)

theorem dbSelFrom_filter_irrelevant (keep : Job → Bool) :
    ∀ (l : List Job) (ids : List Int) (names : List String),
    (∀ j ∈ l, keep j = false → j ∉ dbSelFrom ids names l) →
    dbSelFrom ids names (l.filter keep) = dbSelFrom ids names l := by
  intro l
  induction l with
  | nil => intro ids names _; rfl
  | cons x l ih =>
    intro ids names h
    cases hk : keep x with
    | true =>
      rw [List.filter_cons_of_pos hk]
      cases hx : x.binlog.dbInfo with
      | none =>
        simp only [dbSelFrom, hx]
        exact ih ids names (fun j hj hkj => by
          have := h j (List.mem_cons_of_mem x hj) hkj
          simp only [dbSelFrom, hx] at this; exact this)
      | some dx =>
        by_cases hc : x.schemaID ∈ ids ∨ dx.name ∈ names
        · simp only [dbSelFrom, hx]
          rw [if_pos hc, if_pos hc]
          have := ih (x.schemaID :: ids) (dx.name :: names) (fun j hj hkj => by
            have h2 := h j (List.mem_cons_of_mem x hj) hkj
            simp only [dbSelFrom, hx] at h2
            rw [if_pos hc] at h2
            exact fun hmem => h2 (List.mem_cons_of_mem x hmem))
          rw [this]
        · simp only [dbSelFrom, hx]
          rw [if_neg hc, if_neg hc]
          exact ih ids names (fun j hj hkj => by
            have := h j (List.mem_cons_of_mem x hj) hkj
            simp only [dbSelFrom, hx] at this; rwa [if_neg hc] at this)
    | false =>
      rw [List.filter_cons_of_neg (by simp [hk])]
      have hx0 := h x (List.mem_cons_self x l) hk
      cases hx : x.binlog.dbInfo with
      | none =>
        simp only [dbSelFrom, hx]
        exact ih ids names (fun j hj hkj => by
          have := h j (List.mem_cons_of_mem x hj) hkj
          simp only [dbSelFrom, hx] at this; exact this)
      | some dx =>
        by_cases hc : x.schemaID ∈ ids ∨ dx.name ∈ names
        · exfalso
          apply hx0
          simp only [dbSelFrom, hx]
          rw [if_pos hc]
          exact List.mem_cons_self x _
        · simp only [dbSelFrom, hx]
          rw [if_neg hc]
          exact ih ids names (fun j hj hkj => by
            have := h j (List.mem_cons_of_mem x hj) hkj
            simp only [dbSelFrom, hx] at this; rwa [if_neg hc] at this)

theorem tSelFrom_filter_irrelevant (keep : Job → Bool) :
    ∀ (l : List Job) (ids : List Int) (names : List String),
    (∀ j ∈ l, keep j = false → j ∉ tSelFrom ids names l) →
    tSelFrom ids names (l.filter keep) = tSelFrom ids names l := by
  intro l
  induction l with
  | nil => intro ids names _; rfl
  | cons x l ih =>
    intro ids names h
    cases hk : keep x with
    | true =>
      rw [List.filter_cons_of_pos hk]
      cases hx : x.binlog.tableInfo with
      | none =>
        simp only [tSelFrom, hx]
        exact ih ids names (fun j hj hkj => by
          have := h j (List.mem_cons_of_mem x hj) hkj
          simp only [tSelFrom, hx] at this; exact this)
      | some tx =>
        by_cases hc : x.tableID ∈ ids ∨ tx.name ∈ names
        · simp only [tSelFrom, hx]
          rw [if_pos hc, if_pos hc]
          have := ih (tx.id :: x.tableID :: ids) (tx.name :: names) (fun j hj hkj => by
            have h2 := h j (List.mem_cons_of_mem x hj) hkj
            simp only [tSelFrom, hx] at h2
            rw [if_pos hc] at h2
            exact fun hmem => h2 (List.mem_cons_of_mem x hmem))
          rw [this]
        · simp only [tSelFrom, hx]
          rw [if_neg hc, if_neg hc]
          exact ih ids names (fun j hj hkj => by
            have := h j (List.mem_cons_of_mem x hj) hkj
            simp only [tSelFrom, hx] at this; rwa [if_neg hc] at this)
    | false =>
      rw [List.filter_cons_of_neg (by simp [hk])]
      have hx0 := h x (List.mem_cons_self x l) hk
      cases hx : x.binlog.tableInfo with
      | none =>
        simp only [tSelFrom, hx]
        exact ih ids names (fun j hj hkj => by
          have := h j (List.mem_cons_of_mem x hj) hkj
          simp only [tSelFrom, hx] at this; exact this)
      | some tx =>
        by_cases hc : x.tableID ∈ ids ∨ tx.name ∈ names
        · exfalso
          apply hx0
          simp only [tSelFrom, hx]
          rw [if_pos hc]
          exact List.mem_cons_self x _
        · simp only [tSelFrom, hx]
          rw [if_neg hc]
          exact ih ids names (fun j hj hkj => by
            have := h j (List.mem_cons_of_mem x hj) hkj
            simp only [tSelFrom, hx] at this; rwa [if_neg hc] at this)

theorem mem_sortJobsDesc {j : Job} {l : List Job} :
    j ∈ sortJobsDesc l ↔ j ∈ l :=
  List.mem_insertionSort jobsGE

/-- Claim C9: the history filter is monotone under history growth.  The
smaller history H is `fullJobs.filter keep`; the hypothesis `hirr` says the
events dropped by `keep` are irrelevant (never selected for any target when
filtering the full history); the conclusion says the selection from the
full history, restricted to H, equals the selection from H alone.  The
pairwise-distinct-versions hypothesis marks the domain on which the
embedding's deterministic descending sort coincides with the program's
(unstable) `sort.Slice`. -/
theorem filterDDLJobs_monotone (tables : List Table) (fullJobs : List Job)
    (keep : Job → Bool)
    (_hdistinct : fullJobs.Pairwise
      (fun a b => a.binlog.schemaVersion ≠ b.binlog.schemaVersion))
    (hirr : ∀ j ∈ fullJobs, keep j = false → j ∉ FilterDDLJobs fullJobs tables) :
    (FilterDDLJobs fullJobs tables).filter keep
      = FilterDDLJobs (fullJobs.filter keep) tables := by
  clear _hdistinct
  have hunfold : ∀ (jobs : List Job) (tbls : List Table),
      FilterDDLJobs jobs tbls =
        ((getDatabases tbls).map
          (fun d => dbSelFrom [d.id] [d.name] (sortJobsDesc jobs))).flatten ++
        (tbls.map
          (fun t => tSelFrom [t.info.id] [t.info.name] (sortJobsDesc jobs))).flatten :=
    fun _ _ => rfl
  have hmemA : ∀ d ∈ getDatabases tables,
      ∀ j ∈ dbSelFrom [d.id] [d.name] (sortJobsDesc fullJobs),
      j ∈ FilterDDLJobs fullJobs tables := by
    intro d hd j hj
    rw [hunfold]
    refine List.mem_append_left _ (List.mem_flatten.mpr
      ⟨dbSelFrom [d.id] [d.name] (sortJobsDesc fullJobs), ?_, hj⟩)
    exact List.mem_map.mpr ⟨d, hd, rfl⟩
  have hmemB : ∀ t ∈ tables,
      ∀ j ∈ tSelFrom [t.info.id] [t.info.name] (sortJobsDesc fullJobs),
      j ∈ FilterDDLJobs fullJobs tables := by
    intro t ht j hj
    rw [hunfold]
    refine List.mem_append_right _ (List.mem_flatten.mpr
      ⟨tSelFrom [t.info.id] [t.info.name] (sortJobsDesc fullJobs), ?_, hj⟩)
    exact List.mem_map.mpr ⟨t, ht, rfl⟩
  have hkeepA : ∀ d ∈ getDatabases tables,
      ∀ j ∈ dbSelFrom [d.id] [d.name] (sortJobsDesc fullJobs), keep j = true := by
    intro d hd j hj
    by_contra hkj
    have hkj' : keep j = false := by revert hkj; cases keep j <;> simp
    exact hirr j (mem_sortJobsDesc.mp (mem_of_mem_dbSelFrom _ _ _ hj)) hkj'
      (hmemA d hd j hj)
  have hkeepB : ∀ t ∈ tables,
      ∀ j ∈ tSelFrom [t.info.id] [t.info.name] (sortJobsDesc fullJobs),
      keep j = true := by
    intro t ht j hj
    by_contra hkj
    have hkj' : keep j = false := by revert hkj; cases keep j <;> simp
    exact hirr j (mem_sortJobsDesc.mp (mem_of_mem_tSelFrom _ _ _ hj)) hkj'
      (hmemB t ht j hj)
  have hgrowA : ∀ d ∈ getDatabases tables,
      dbSelFrom [d.id] [d.name] ((sortJobsDesc fullJobs).filter keep)
        = dbSelFrom [d.id] [d.name] (sortJobsDesc fullJobs) := by
    intro d hd
    apply dbSelFrom_filter_irrelevant
    intro j hj hkj hmem
    exact hirr j (mem_sortJobsDesc.mp hj) hkj (hmemA d hd j hmem)
  have hgrowB : ∀ t ∈ tables,
      tSelFrom [t.info.id] [t.info.name] ((sortJobsDesc fullJobs).filter keep)
        = tSelFrom [t.info.id] [t.info.name] (sortJobsDesc fullJobs) := by
    intro t ht
    apply tSelFrom_filter_irrelevant
    intro j hj hkj hmem
    exact hirr j (mem_sortJobsDesc.mp hj) hkj (hmemB t ht j hmem)
  rw [hunfold, hunfold, List.filter_append, List.filter_flatten,
    List.filter_flatten, List.map_map, List.map_map,
    ← filter_sortJobsDesc keep fullJobs]
  congr 1
  · congr 1
    apply List.map_congr_left
    intro d hd
    show (dbSelFrom [d.id] [d.name] (sortJobsDesc fullJobs)).filter keep = _
    rw [List.filter_eq_self.mpr (hkeepA d hd), hgrowA d hd]
  · congr 1
    apply List.map_congr_left
    intro t ht
    show (tSelFrom [t.info.id] [t.info.name] (sortJobsDesc fullJobs)).filter keep = _
    rw [List.filter_eq_self.mpr (hkeepB t ht), hgrowB t ht]

/-- Flag used in the witness of the monotonicity theorem: an event is in
the smaller history exactly when its schema version is 1. -/
def wKeep : Job → Bool := fun j => j.binlog.schemaVersion == 1

theorem filterDDLJobs_monotone_witness :
    (FilterDDLJobs
        [⟨1, 2, ⟨1, none, some ⟨2, "t", 0⟩⟩⟩, ⟨9, 99, ⟨2, none, some ⟨99, "zz", 0⟩⟩⟩]
        [⟨⟨1, "d"⟩, ⟨2, "t", 0⟩⟩]).filter wKeep
      = FilterDDLJobs
        ([⟨1, 2, ⟨1, none, some ⟨2, "t", 0⟩⟩⟩,
          ⟨9, 99, ⟨2, none, some ⟨99, "zz", 0⟩⟩⟩].filter wKeep)
        [⟨⟨1, "d"⟩, ⟨2, "t", 0⟩⟩] :=
  filterDDLJobs_monotone [⟨⟨1, "d"⟩, ⟨2, "t", 0⟩⟩]
    [⟨1, 2, ⟨1, none, some ⟨2, "t", 0⟩⟩⟩, ⟨9, 99, ⟨2, none, some ⟨99, "zz", 0⟩⟩⟩]
    wKeep (by decide) (by decide)

/-! ### Cluster clock advancement (`Client.ResetTS`, claim C4)

The retry loop of `ResetTS` (src/pkg/restore/client.go lines 140-148)
declares `i := 0` and on each attempt contacts `pdAddrs[i % len(pdAddrs)]`
— but nothing in the closure ever increments `i`, so every attempt uses
index 0.  `utils.WithRetry` and `newResetTSBackoffer` live in packages not
under src/ and are modelled from the spec. -/

/-- Modelled from the spec: `utils.WithRetry` with the `ResetTS` backoffer
(both missing from src/) retries the operation under a bounded-attempt
backoff policy, stopping at the first success and yielding the last
attempt's error as fatal once the attempts are exhausted.  The state
passed through is the closure's captured counter `i`, which the source
closure reads but never updates; `rpc a ep` is the outcome of
`utils.ResetTS(ep, restoreTS)` on attempt `a`.  Returns the endpoints
contacted in order and the final error, if any. -/
def resetTSRetry (pdAddrs : List String) (rpc : Nat → String → Option Nat) :
    Nat → Nat → Nat → List String × Option Nat
  | 0, _, _ => ([], none)
  | Nat.succ rem, attempt, i =>
    let ep := pdAddrs.getD (i % pdAddrs.length) ""
    match rpc attempt ep with
    | none => ([ep], none)
    | some e =>
      if rem = 0 then ([ep], some e)
      else
        let r := resetTSRetry pdAddrs rpc rem (attempt + 1) i
        (ep :: r.1, r.2)

/-- Embeds `Client.ResetTS`: run the retry loop with the captured counter
initialized to 0 (and never incremented, as in the source). -/
def ResetTS (pdAddrs : List String) (rpc : Nat → String → Option Nat)
    (attempts : Nat) : List String × Option Nat :=
  resetTSRetry pdAddrs rpc attempts 0 0

theorem resetTSRetry_constant (pdAddrs : List String)
    (rpc : Nat → String → Option Nat) :
    ∀ (rem attempt : Nat),
    ((resetTSRetry pdAddrs rpc rem attempt 0).1).all
      (fun ep => ep == pdAddrs.getD 0 "") = true := by
  intro rem
  induction rem with
  | zero => intro attempt; rfl
  | succ rem ih =>
    intro attempt
    simp only [resetTSRetry, Nat.zero_mod]
    cases rpc attempt (pdAddrs.getD 0 "") with
    | none => simp
    | some e =>
      dsimp only
      cases rem with
      | zero => simp
      | succ rem' =>
        rw [if_neg (Nat.succ_ne_zero rem')]
        simp only [List.all_cons, beq_self_eq_true, Bool.true_and]
        exact ih (attempt + 1)

/-- Claim C4, code bug: `ResetTS` does not round-robin across the provided
endpoints — the closure's index `i` is never incremented, so every retry
attempt contacts `pdAddrs[0]`.  First conjunct: concretely, with two
endpoints and an always-failing RPC, three attempts all contact `pd0` and
the exhausted backoff surfaces the last error as fatal.  Second conjunct:
in general every contacted endpoint equals `pdAddrs[0]`. -/
theorem resetTS_contacts_first_endpoint_only :
    (ResetTS ["pd0", "pd1"] (fun _ _ => some 7) 3 = (["pd0", "pd0", "pd0"], some 7))
    ∧ ∀ (pdAddrs : List String) (rpc : Nat → String → Option Nat) (attempts : Nat),
      ((ResetTS pdAddrs rpc attempts).1).all
        (fun ep => ep == pdAddrs.getD 0 "") = true :=
  ⟨by decide, fun pdAddrs rpc attempts => resetTSRetry_constant pdAddrs rpc attempts 0⟩

/-! ### Ingest-mode broadcast (`Client.switchTiKVMode`, claim C7) -/

/-- Embeds the store descriptors returned by
`pdClient.GetAllStores(ctx, pd.WithExcludeTombstone())`: live,
non-tombstoned nodes with an id and an RPC address. -/
structure Store where
  sid : Nat
  address : String
  deriving DecidableEq, Repr

/-- Embeds `Client.switchTiKVMode` (src/pkg/restore/client.go lines
324-365): iterate over the live non-tombstoned stores; for each, dial a
short-lived connection (`dial`, bounded connect/keepalive timeouts) and
issue the unary `SwitchMode` call (`switchRPC`); either failure aborts the
whole broadcast with that store's error; a `conn.Close()` failure is only
logged and the loop continues, so it does not appear here.  Returns the
stores on which the mode was applied, in contact order, and the aborting
store's error, if any; nothing is ever rolled back. -/
def switchTiKVMode (dial switchRPC : Store → Option Nat) :
    List Store → List Store × Option (Store × Nat)
  | [] => ([], none)
  | s :: rest =>
    match dial s with
    | some e => ([], some (s, e))
    | none =>
      match switchRPC s with
      | some e => ([], some (s, e))
      | none =>
        let r := switchTiKVMode dial switchRPC rest
        (s :: r.1, r.2)

/-- Claim C7: broadcasting over stores `pre ++ k :: post` where every
store in `pre` is reachable and accepts the mode switch and store `k` is
unreachable returns an error attributable to `k` (the pair carries the
offending store), aborts before contacting `post`, and leaves the mode
applied exactly on the stores of `pre` — the partial application is not
rolled back. -/
theorem switchTiKVMode_partial (dial switchRPC : Store → Option Nat)
    (pre post : List Store) (k : Store) (e : Nat)
    (hpre : ∀ s ∈ pre, dial s = none ∧ switchRPC s = none)
    (hk : dial k = some e) :
    switchTiKVMode dial switchRPC (pre ++ k :: post) = (pre, some (k, e)) := by
  induction pre with
  | nil => simp [switchTiKVMode, hk]
  | cons s pre ih =>
    obtain ⟨h1, h2⟩ := hpre s (List.mem_cons_self s pre)
    have ih' := ih (fun s' hs' => hpre s' (List.mem_cons_of_mem s hs'))
    simp [switchTiKVMode, h1, h2, ih']

theorem switchTiKVMode_partial_witness :
    switchTiKVMode
      (fun s => if s.sid = 3 then some 42 else none)
      (fun _ => none)
      [⟨1, "n1"⟩, ⟨2, "n2"⟩, ⟨3, "n3"⟩, ⟨4, "n4"⟩]
      = ([⟨1, "n1"⟩, ⟨2, "n2"⟩], some (⟨3, "n3"⟩, 42)) :=
  switchTiKVMode_partial
    (fun s => if s.sid = 3 then some 42 else none)
    (fun _ => none)
    [⟨1, "n1"⟩, ⟨2, "n2"⟩] [⟨4, "n4"⟩] ⟨3, "n3"⟩ 42
    (by decide) (by decide)

/-! ### One-shot rate limit (`Client.setSpeedLimit`, claim C8) -/

/-- Embeds the `Client` fields read and written by `setSpeedLimit`:
the one-shot `hasSpeedLimited` flag and the configured `rateLimit`. -/
structure ClientSt where
  hasSpeedLimited : Bool
  rateLimit : Nat
  deriving DecidableEq, Repr

/-- Embeds the store loop of `setSpeedLimit`: for each store issue
`fileImporter.setDownloadSpeedLimit(store.GetId())`, stopping at the first
error.  Returns the ids of the RPCs issued, in order, and the error. -/
def speedLimitLoop (rpc : Nat → Option Nat) : List Store → List Nat × Option Nat
  | [] => ([], none)
  | s :: rest =>
    match rpc s.sid with
    | some e => ([s.sid], some e)
    | none =>
      let r := speedLimitLoop rpc rest
      (s.sid :: r.1, r.2)

/-- Embeds `Client.setSpeedLimit` (src/pkg/restore/client.go lines
239-254): when the one-shot flag is unset and a non-zero rate limit is
configured, list the non-tombstoned stores (`stores`, an oracle that can
fail) and apply the limit to every store; the flag is set only after every
store succeeded.  Otherwise nothing is done.  Returns the new client
state, the ids of the rate-limit RPCs issued, and the error, if any. -/
def setSpeedLimit (st : ClientSt) (stores : Except Nat (List Store))
    (rpc : Nat → Option Nat) : ClientSt × List Nat × Option Nat :=
  if !st.hasSpeedLimited && st.rateLimit != 0 then
    match stores with
    | .error e => (st, [], some e)
    | .ok ss =>
      let r := speedLimitLoop rpc ss
      match r.2 with
      | some e => (st, r.1, some e)
      | none => ({ st with hasSpeedLimited := true }, r.1, none)
  else (st, [], none)

theorem speedLimitLoop_all_ok (rpc : Nat → Option Nat) :
    ∀ ss : List Store, (∀ s ∈ ss, rpc s.sid = none) →
    speedLimitLoop rpc ss = (ss.map (fun s => s.sid), none) := by
  intro ss
  induction ss with
  | nil => intro _; rfl
  | cons s rest ih =>
    intro h
    have h1 := h s (List.mem_cons_self s rest)
    have h2 := ih (fun s' hs' => h s' (List.mem_cons_of_mem s hs'))
    simp [speedLimitLoop, h1, h2]

/-- Claim C8: the per-node rate limit is an idempotent one-shot guarded by
`hasSpeedLimited`.  First conjunct: on a fresh client with a non-zero rate
limit, a run in which every store accepts the RPC issues exactly one RPC
per store and sets the flag.  Second conjunct: on any client whose flag is
already set, `setSpeedLimit` — which every subsequent `RestoreFiles` call
runs first — issues no RPCs at all, changes nothing and returns no
error. -/
theorem setSpeedLimit_once (st : ClientSt) (ss : List Store)
    (rpc : Nat → Option Nat)
    (hflag : st.hasSpeedLimited = false) (hrl : st.rateLimit ≠ 0)
    (hok : ∀ s ∈ ss, rpc s.sid = none) :
    setSpeedLimit st (Except.ok ss) rpc
      = (⟨true, st.rateLimit⟩, ss.map (fun s => s.sid), none)
    ∧ ∀ (st2 : ClientSt) (stores2 : Except Nat (List Store))
        (rpc2 : Nat → Option Nat), st2.hasSpeedLimited = true →
        setSpeedLimit st2 stores2 rpc2 = (st2, [], none) := by
  constructor
  · simp [setSpeedLimit, hflag, hrl, speedLimitLoop_all_ok rpc ss hok]
  · intro st2 stores2 rpc2 hflag2
    simp [setSpeedLimit, hflag2]

theorem setSpeedLimit_once_witness :
    setSpeedLimit ⟨false, 5⟩ (Except.ok [⟨1, "n1"⟩, ⟨2, "n2"⟩]) (fun _ => none)
      = (⟨true, 5⟩, [1, 2], none) :=
  (setSpeedLimit_once ⟨false, 5⟩ [⟨1, "n1"⟩, ⟨2, "n2"⟩] (fun _ => none)
    rfl (by decide) (by decide)).1

/-! ### Table creation (`DB.CreateTable`, claim C10)

`DB.CreateTable` (src/unnamed/part_000 lines 84-133) builds a `CREATE
TABLE` statement through the external `ConstructResultOfShowCreateTable`,
switches to the target database, rewrites the statement to `CREATE TABLE
IF NOT EXISTS` and executes it, then issues an `ALTER TABLE ...
auto_increment = AutoIncID`.  Go strings are embedded as `List Char`. -/

/-- Splits off the part of a string before its first space (Go
`strings.SplitN` step); the second component is the remainder after the
separator when a separator was found. -/
def breakAtSpace : List Char → List Char × Option (List Char)
  | [] => ([], none)
  | c :: cs =>
    if c = ' ' then ([], some cs)
    else
      let r := breakAtSpace cs
      (c :: r.1, r.2)

/-- Embeds Go `strings.SplitN(s, " ", n)` for `n ≥ 1`: at most `n`
substrings, the last one holding the unsplit remainder. -/
def splitNSpace : Nat → List Char → List (List Char)
  | 0, _ => []
  | 1, s => [s]
  | Nat.succ n, s =>
    match breakAtSpace s with
    | (pre, none) => [pre]
    | (pre, some rest) => pre :: splitNSpace n rest

/-- Embeds Go `strings.ToUpper` on the ASCII statements at hand. -/
def goToUpper (s : List Char) : List Char :=
  s.map Char.toUpper

/-- Embeds the `IF NOT EXISTS` insertion of `DB.CreateTable`
(src/unnamed/part_000 lines 106-110): split the generated statement into
at most three space-separated words; when there are more than two and the
first two uppercase to `CREATE` and `TABLE`, replace them with
`CREATE TABLE IF NOT EXISTS `. -/
def insertIfNotExists (createSQL : List Char) : List Char :=
  let words := splitNSpace 3 createSQL
  if words.length > 2 ∧ goToUpper (words.getD 0 []) = "CREATE".data
      ∧ goToUpper (words.getD 1 []) = "TABLE".data then
    "CREATE TABLE IF NOT EXISTS ".data ++ words.getD 2 []
  else createSQL

/-- Character-list version of Go `strings.HasPrefix`. -/
def hasPre : List Char → List Char → Bool
  | [], _ => true
  | _ :: _, [] => false
  | p :: ps, c :: cs => p == c && hasPre ps cs

/-- First space-delimited token of a statement tail (used by the session
model to find the table name a CREATE statement targets). -/
def firstTok (s : List Char) : List Char :=
  s.takeWhile (fun c => c != ' ')

/-- Minimal model of the external SQL session (`session.Session.Execute`
is an out-of-scope collaborator per the spec; this models the documented
semantics of the statements `DB.CreateTable` issues).  The state is the
set of existing table names.  `CREATE TABLE IF NOT EXISTS name ...`
always succeeds, creating the table only when absent and keeping the
existing table otherwise; a plain `CREATE TABLE name ...` fails when the
table already exists; `USE`, `ALTER TABLE` and other statements succeed
without touching the set of tables. -/
def modelExec (tables : List (List Char)) (stmt : List Char) :
    List (List Char) × Option Nat :=
  if hasPre "CREATE TABLE IF NOT EXISTS ".data stmt then
    let nm := firstTok (stmt.drop ("CREATE TABLE IF NOT EXISTS ".data.length))
    if nm ∈ tables then (tables, none) else (nm :: tables, none)
  else if hasPre "CREATE TABLE ".data stmt then
    let nm := firstTok (stmt.drop ("CREATE TABLE ".data.length))
    if nm ∈ tables then (tables, some 1) else (nm :: tables, none)
  else (tables, none)

/-- Embeds `DB.CreateTable` (src/unnamed/part_000 lines 84-133).
`constructSQL` is the outcome of the external
`ConstructResultOfShowCreateTable` (which also receives the allocator
`newIDAllocator(schema.AutoIncID)`, irrelevant here); `esc` is
`escapeTableName` (code of this repository not under src/, kept
abstract); `exec` is the session's `Execute`.  The statements are issued
in source order — `use <db>;`, the rewritten create statement, then
`alter table <name> auto_increment = <AutoIncID>` — stopping at the first
error.  Returns the final session state, the executed statements in
order, and the returned error. -/
def CreateTable {σ : Type} (t : Table) (constructSQL : Except Nat (List Char))
    (esc : String → List Char) (exec : σ → List Char → σ × Option Nat)
    (st : σ) : σ × List (List Char) × Option Nat :=
  match constructSQL with
  | .error e => (st, [], some e)
  | .ok createSQL =>
    let useSQL := "use ".data ++ t.db.name.data ++ [';']
    let r1 := exec st useSQL
    match r1.2 with
    | some e => (r1.1, [useSQL], some e)
    | none =>
      let createSQL2 := insertIfNotExists createSQL
      let r2 := exec r1.1 createSQL2
      match r2.2 with
      | some e => (r2.1, [useSQL, createSQL2], some e)
      | none =>
        let alterSQL := "alter table ".data ++ esc t.info.name
          ++ " auto_increment = ".data ++ (toString t.info.autoIncID).data
        let r3 := exec r2.1 alterSQL
        (r3.1, [useSQL, createSQL2, alterSQL], r3.2)

theorem breakAtSpace_append (t : List Char) :
    ∀ w : List Char, (∀ c ∈ w, c ≠ ' ') →
    breakAtSpace (w ++ ' ' :: t) = (w, some t) := by
  intro w
  induction w with
  | nil => intro _; simp [breakAtSpace]
  | cons c cs ih =>
    intro h
    have hc : c ≠ ' ' := h c (List.mem_cons_self c cs)
    have ih' := ih (fun c' hc' => h c' (List.mem_cons_of_mem c hc'))
    simp [breakAtSpace, hc, ih']

theorem splitNSpace_three (w0 w1 rest : List Char)
    (h0 : ∀ c ∈ w0, c ≠ ' ') (h1 : ∀ c ∈ w1, c ≠ ' ') :
    splitNSpace 3 (w0 ++ ' ' :: (w1 ++ ' ' :: rest)) = [w0, w1, rest] := by
  show (match breakAtSpace (w0 ++ ' ' :: (w1 ++ ' ' :: rest)) with
    | (pre, none) => [pre]
    | (pre, some r) => pre :: splitNSpace 2 r) = _
  rw [breakAtSpace_append _ w0 h0]
  show w0 :: (match breakAtSpace (w1 ++ ' ' :: rest) with
    | (pre, none) => [pre]
    | (pre, some r) => pre :: splitNSpace 1 r) = _
  rw [breakAtSpace_append _ w1 h1]
  rfl

theorem insertIfNotExists_rewrites (w0 w1 rest : List Char)
    (h0 : ∀ c ∈ w0, c ≠ ' ') (h1 : ∀ c ∈ w1, c ≠ ' ')
    (hu0 : goToUpper w0 = "CREATE".data) (hu1 : goToUpper w1 = "TABLE".data) :
    insertIfNotExists (w0 ++ ' ' :: (w1 ++ ' ' :: rest))
      = "CREATE TABLE IF NOT EXISTS ".data ++ rest := by
  unfold insertIfNotExists
  rw [splitNSpace_three w0 w1 rest h0 h1]
  rw [if_pos ⟨by simp, hu0, hu1⟩]
  rfl

theorem hasPre_append (t : List Char) :
    ∀ p : List Char, hasPre p (p ++ t) = true := by
  intro p
  induction p with
  | nil => rfl
  | cons c cs ih => simp [hasPre, ih]

theorem firstTok_append (t : List Char) (nm : List Char)
    (h : ∀ c ∈ nm, c ≠ ' ') :
    firstTok (nm ++ ' ' :: t) = nm := by
  induction nm with
  | nil => simp [firstTok, List.takeWhile]
  | cons c cs ih =>
    have hc : c ≠ ' ' := h c (List.mem_cons_self c cs)
    have ih' := ih (fun c' hc' => h c' (List.mem_cons_of_mem c hc'))
    have hcb : (c != ' ') = true := by simpa using hc
    simp only [firstTok] at ih'
    simp only [firstTok, List.cons_append, List.takeWhile_cons, hcb, if_pos]
    rw [ih']

theorem hasPre_append_both :
    ∀ (p q s : List Char), hasPre (p ++ q) (p ++ s) = hasPre q s := by
  intro p q s
  induction p with
  | nil => rfl
  | cons c cs ih => simp [hasPre, ih]

/-- Claim C10: `DB.CreateTable` rewrites every generated statement that
begins (case-insensitively) with the two words CREATE TABLE into
`CREATE TABLE IF NOT EXISTS ...` before executing it (first conjunct), so
creating a table whose name already exists in the target database is not
an error and the existing table is kept; afterwards it issues an
`ALTER TABLE` setting auto_increment to the snapshot schema's `AutoIncID`
(second conjunct: against the session model, on a state where the
generated statement's table already exists, the call returns no error,
the set of tables is unchanged, and exactly `use`, the rewritten create,
and the auto-increment alter run, in that order).  Third conjunct: the
un-rewritten statement would have failed on that state, which is what the
rewrite avoids. -/
theorem createTable_if_not_exists (t : Table) (esc : String → List Char)
    (nm cols : List Char) (tables0 : List (List Char))
    (hnm : ∀ c ∈ nm, c ≠ ' ') (hex : nm ∈ tables0)
    (hnotINE : hasPre "IF NOT EXISTS ".data (nm ++ ' ' :: cols) = false) :
    (∀ (w0 w1 rest : List Char), (∀ c ∈ w0, c ≠ ' ') → (∀ c ∈ w1, c ≠ ' ') →
      goToUpper w0 = "CREATE".data → goToUpper w1 = "TABLE".data →
      insertIfNotExists (w0 ++ ' ' :: (w1 ++ ' ' :: rest))
        = "CREATE TABLE IF NOT EXISTS ".data ++ rest)
    ∧ CreateTable t (Except.ok ("CREATE TABLE ".data ++ (nm ++ ' ' :: cols)))
        esc modelExec tables0
      = (tables0,
         ["use ".data ++ t.db.name.data ++ [';'],
          "CREATE TABLE IF NOT EXISTS ".data ++ (nm ++ ' ' :: cols),
          "alter table ".data ++ esc t.info.name
            ++ " auto_increment = ".data ++ (toString t.info.autoIncID).data],
         none)
    ∧ modelExec tables0 ("CREATE TABLE ".data ++ (nm ++ ' ' :: cols))
      = (tables0, some 1) := by
  have hcreate : modelExec tables0
      ("CREATE TABLE IF NOT EXISTS ".data ++ (nm ++ ' ' :: cols))
      = (tables0, none) := by
    unfold modelExec
    simp only [hasPre_append, if_true, List.drop_left, firstTok_append cols nm hnm,
      if_pos hex]
  refine ⟨insertIfNotExists_rewrites, ?_, ?_⟩
  · have hrw : insertIfNotExists ("CREATE TABLE ".data ++ (nm ++ ' ' :: cols))
        = "CREATE TABLE IF NOT EXISTS ".data ++ (nm ++ ' ' :: cols) := by
      have harg : "CREATE TABLE ".data ++ (nm ++ ' ' :: cols)
          = "CREATE".data ++ ' ' :: ("TABLE".data ++ ' ' :: (nm ++ ' ' :: cols)) := rfl
      rw [harg]
      exact insertIfNotExists_rewrites _ _ _ (by decide) (by decide) rfl rfl
    have huse : modelExec tables0 ("use ".data ++ t.db.name.data ++ [';'])
        = (tables0, none) := rfl
    have halter : modelExec tables0 ("alter table ".data ++ esc t.info.name
        ++ " auto_increment = ".data ++ (toString t.info.autoIncID).data)
        = (tables0, none) := rfl
    simp only [CreateTable, hrw, huse, hcreate, halter]
  · have hpre13 : "CREATE TABLE IF NOT EXISTS ".data
        = "CREATE TABLE ".data ++ "IF NOT EXISTS ".data := rfl
    have hbadINE : hasPre "CREATE TABLE IF NOT EXISTS ".data
        ("CREATE TABLE ".data ++ (nm ++ ' ' :: cols)) = false := by
      rw [hpre13, hasPre_append_both]
      exact hnotINE
    unfold modelExec
    simp only [hbadINE, Bool.false_eq_true, if_false, hasPre_append, if_true,
      List.drop_left, firstTok_append cols nm hnm, if_pos hex]

theorem createTable_if_not_exists_witness :
    (∀ (w0 w1 rest : List Char), (∀ c ∈ w0, c ≠ ' ') → (∀ c ∈ w1, c ≠ ' ') →
      goToUpper w0 = "CREATE".data → goToUpper w1 = "TABLE".data →
      insertIfNotExists (w0 ++ ' ' :: (w1 ++ ' ' :: rest))
        = "CREATE TABLE IF NOT EXISTS ".data ++ rest)
    ∧ CreateTable ⟨⟨1, "d"⟩, ⟨2, "t", 5⟩⟩
        (Except.ok ("CREATE TABLE ".data ++ (['t'] ++ ' ' :: "(x)".data)))
        (fun s => s.data) modelExec [['t']]
      = ([['t']],
         ["use ".data ++ "d".data ++ [';'],
          "CREATE TABLE IF NOT EXISTS ".data ++ (['t'] ++ ' ' :: "(x)".data),
          "alter table ".data ++ "t".data
            ++ " auto_increment = ".data ++ (toString (5 : Int)).data],
         none)
    ∧ modelExec [['t']] ("CREATE TABLE ".data ++ (['t'] ++ ' ' :: "(x)".data))
      = ([['t']], some 1) :=
  createTable_if_not_exists ⟨⟨1, "d"⟩, ⟨2, "t", 5⟩⟩ (fun s => s.data)
    ['t'] "(x)".data [['t']] (by decide) (by decide) (by decide)

/-! ### Concurrent segment restoration (`Client.RestoreFiles`, claims C2, C5, C6)

`RestoreFiles` (src/pkg/restore/client.go lines 256-312) dispatches one
task per file into the worker pool.  Each task evaluates
`fileImporter.Import(file, rules)` (a `select` evaluates its send value up
front) and then either sends that result on the buffered channel `errCh`
(capacity `len(files)`), afterwards sending one tick on `updateCh`, or —
when `rc.ctx` is already cancelled — sends the `nil` sentinel on `errCh`
and finishes.  The main goroutine receives exactly one value per file; on
the first non-nil error it calls `rc.cancel()`, waits for all tasks
(`wg.Wait()`), and returns that error; if all received values are nil it
returns nil.  We embed this as a small-step machine over an explicit
state, driven by an arbitrary schedule of atomic actions; `imp i` is the
result of importing file `i` (`none` = success). -/

inductive TaskSt where
  | idle
  | sentValue
  | doneSentinel
  | doneValue
  deriving DecidableEq, Repr

inductive MainSt where
  | looping
  | waiting (e : Nat)
  | retNil
  | retErr (e : Nat)
  deriving DecidableEq, Repr

structure RFSt where
  tasks : List TaskSt
  queue : List (Option Nat)
  consumed : List (Option Nat)
  main : MainSt
  cancelled : Bool
  progress : Nat
  deriving DecidableEq, Repr

inductive RFAct where
  | sendV (i : Nat)
  | sendS (i : Nat)
  | upd (i : Nat)
  | recv
  | finish
  deriving DecidableEq, Repr

/-- A task is finished (its deferred `wg.Done()` has run). -/
def TaskSt.isFin : TaskSt → Bool
  | .doneSentinel => true
  | .doneValue => true
  | _ => false

/-- The call has returned (with nil or with an error). -/
def MainSt.returned : MainSt → Bool
  | .retNil => true
  | .retErr _ => true
  | _ => false

/-- One atomic step of the `RestoreFiles` machine.  `sendV i`: task `i`'s
select chooses the `errCh <- Import(...)` case (always ready — the buffer
holds one slot per file); `sendS i`: the select chooses the
`<-rc.ctx.Done()` case and sends the nil sentinel (only ready after
cancellation); `upd i`: the external progress collector consumes task
`i`'s `updateCh` tick and the task finishes; `recv`: the aggregation loop
receives the next buffered value, returning nil after the `n`-th nil,
or cancelling and moving to `wg.Wait()` on a non-nil; `finish`:
`wg.Wait()` returns once every task finished and the loop returns the
stored error.  Disabled actions leave the state unchanged. -/
def RFStep (imp : Nat → Option Nat) (s : RFSt) : RFAct → RFSt
  | .sendV i =>
    if s.tasks[i]? = some .idle then
      { s with tasks := s.tasks.set i .sentValue, queue := s.queue ++ [imp i] }
    else s
  | .sendS i =>
    if s.tasks[i]? = some .idle ∧ s.cancelled = true then
      { s with tasks := s.tasks.set i .doneSentinel, queue := s.queue ++ [none] }
    else s
  | .upd i =>
    if s.tasks[i]? = some .sentValue then
      { s with tasks := s.tasks.set i .doneValue, progress := s.progress + 1 }
    else s
  | .recv =>
    match s.main, s.queue with
    | .looping, v :: q =>
      match v with
      | none =>
        if s.consumed.length + 1 = s.tasks.length then
          { s with queue := q, consumed := s.consumed ++ [none], main := .retNil }
        else
          { s with queue := q, consumed := s.consumed ++ [none] }
      | some e =>
        { s with
          queue := q
          consumed := s.consumed ++ [some e]
          main := .waiting e
          cancelled := true }
    | _, _ => s
  | .finish =>
    match s.main with
    | .waiting e => if s.tasks.all TaskSt.isFin then { s with main := .retErr e } else s
    | _ => s

/-- Initial state: `n` dispatched tasks, empty channel; with zero files
the receive loop has zero iterations and the call returns nil at once. -/
def RFInit (n : Nat) : RFSt :=
  { tasks := List.replicate n .idle, queue := [], consumed := [],
    main := if n = 0 then .retNil else .looping, cancelled := false, progress := 0 }

def RFRun (imp : Nat → Option Nat) (n : Nat) (sched : List RFAct) : RFSt :=
  sched.foldl (RFStep imp) (RFInit n)

/-- A complete run: the call has returned and every task has finished. -/
def RFTerminal (s : RFSt) : Prop :=
  s.main.returned = true ∧ s.tasks.all TaskSt.isFin = true

/-- Guard of each action, exactly as tested by `RFStep`. -/
def RFEnabled (s : RFSt) : RFAct → Prop
  | .sendV i => s.tasks[i]? = some .idle
  | .sendS i => s.tasks[i]? = some .idle ∧ s.cancelled = true
  | .upd i => s.tasks[i]? = some .sentValue
  | .recv => s.main = .looping ∧ s.queue ≠ []
  | .finish => (∃ e, s.main = .waiting e) ∧ s.tasks.all TaskSt.isFin = true

/-- Number of tasks that have performed their one channel send. -/
def sentCount (ts : List TaskSt) : Nat :=
  ts.countP (fun t => t != TaskSt.idle)

/-- Number of tasks that sent their import result and their progress tick. -/
def dvCount (ts : List TaskSt) : Nat :=
  ts.countP (fun t => t == TaskSt.doneValue)

instance (s : RFSt) : Decidable (RFTerminal s) :=
  inferInstanceAs (Decidable (_ ∧ _))

theorem lt_of_getElem?_some {α : Type} {l : List α} {i : Nat} {a : α}
    (h : l[i]? = some a) : i < l.length := by
  by_contra hge
  push_neg at hge
  rw [List.getElem?_eq_none hge] at h
  cases h

theorem countP_set_of_get {α : Type} (p : α → Bool) :
    ∀ (l : List α) (i : Nat) (a v : α), l[i]? = some a →
    (l.set i v).countP p + (if p a then 1 else 0)
      = l.countP p + (if p v then 1 else 0) := by
  intro l
  induction l with
  | nil => intro i a v h; cases h
  | cons hd tl ih =>
    intro i a v h
    cases i with
    | zero =>
      simp only [List.getElem?_cons_zero, Option.some_inj] at h
      subst h
      simp only [List.set_cons_zero, List.countP_cons]
      omega
    | succ i =>
      simp only [List.getElem?_cons_succ] at h
      simp only [List.set_cons_succ, List.countP_cons]
      have := ih i a v h
      omega

/-- The alias-set invariant of the `RestoreFiles` machine, over the
parameters `imp` (per-file import results) and `n` (number of files). -/
structure RFInv (imp : Nat → Option Nat) (n : Nat) (s : RFSt) : Prop where
  hlen : s.tasks.length = n
  hcount : s.consumed.length + s.queue.length = sentCount s.tasks
  hcan : s.cancelled = true ↔ ∃ e, s.main = MainSt.waiting e ∨ s.main = MainSt.retErr e
  hcons : s.cancelled = false → ∀ v ∈ s.consumed, v = none
  hprov : ∀ i, i < n →
    (s.tasks[i]? = some TaskSt.sentValue ∨ s.tasks[i]? = some TaskSt.doneValue) →
    imp i ∈ s.consumed ∨ imp i ∈ s.queue
  hsent : s.cancelled = false → ∀ i : Nat, s.tasks[i]? ≠ some TaskSt.doneSentinel
  hretn : s.main = MainSt.retNil → s.consumed.length = n
  hloop : s.main = MainSt.looping → s.consumed.length < n
  hprog : s.progress = dvCount s.tasks
  hqerr : ∀ e, (some e) ∈ s.queue → ∃ i, i < n ∧ imp i = some e
  hwerr : ∀ e, (s.main = MainSt.waiting e ∨ s.main = MainSt.retErr e) →
    (∃ i, i < n ∧ imp i = some e) ∧
    ∃ pre, s.consumed = pre ++ [some e] ∧ ∀ v ∈ pre, v = none

theorem RFInv_init (imp : Nat → Option Nat) (n : Nat) : RFInv imp n (RFInit n) := by
  refine ⟨?_, ?_, ?_, ?_, ?_, ?_, ?_, ?_, ?_, ?_, ?_⟩
  · simp [RFInit]
  · simp only [RFInit]
    rw [eq_comm]
    show sentCount (List.replicate n TaskSt.idle) = 0
    rw [sentCount, List.countP_eq_zero]
    intro a ha
    rw [List.eq_of_mem_replicate ha]
    decide
  · simp only [RFInit]
    constructor
    · intro h
      exact absurd h (by decide)
    · rintro ⟨e, he | he⟩ <;> by_cases hn : n = 0 <;> simp [hn] at he
  · intro _ v hv
    cases hv
  · intro i _ hor
    exfalso
    rcases hor with h | h <;>
    · simp only [RFInit, List.getElem?_replicate] at h
      by_cases hc : i < n <;> simp [hc] at h
  · intro _ i h
    simp only [RFInit, List.getElem?_replicate] at h
    by_cases hc : i < n <;> simp [hc] at h
  · simp only [RFInit]
    intro h
    by_cases hn : n = 0
    · simp [RFInit, hn]
    · simp [hn] at h
  · simp only [RFInit]
    intro h
    by_cases hn : n = 0
    · simp [hn] at h
    · show (List.length ([] : List (Option Nat))) < n
      simp
      omega
  · simp only [RFInit]
    rw [eq_comm]
    show dvCount (List.replicate n TaskSt.idle) = 0
    rw [dvCount, List.countP_eq_zero]
    intro a ha
    rw [List.eq_of_mem_replicate ha]
    decide
  · intro e he
    cases he
  · intro e he
    exfalso
    rcases he with h | h <;> (simp only [RFInit] at h; by_cases hn : n = 0 <;> simp [hn] at h)

theorem rf_cancelled_false {imp : Nat → Option Nat} {n : Nat} {s : RFSt}
    (hinv : RFInv imp n s)
    (h : ∀ e, s.main ≠ MainSt.waiting e ∧ s.main ≠ MainSt.retErr e) :
    s.cancelled = false := by
  cases hc : s.cancelled
  · rfl
  · exfalso
    obtain ⟨e, he⟩ := hinv.hcan.mp hc
    rcases he with he | he
    · exact (h e).1 he
    · exact (h e).2 he

theorem RFInv_sendV (imp : Nat → Option Nat) (n : Nat) (s : RFSt)
    (hinv : RFInv imp n s) (i : Nat) :
    RFInv imp n (RFStep imp s (.sendV i)) := by
  by_cases hg : s.tasks[i]? = some TaskSt.idle
  · have hiLT : i < s.tasks.length := lt_of_getElem?_some hg
    have hiN : i < n := hinv.hlen ▸ hiLT
    have geti : (s.tasks.set i TaskSt.sentValue)[i]? = some TaskSt.sentValue :=
      List.getElem?_set_self hiLT
    have getne : ∀ j : Nat, j ≠ i →
        (s.tasks.set i TaskSt.sentValue)[j]? = s.tasks[j]? :=
      fun j hj => List.getElem?_set_ne (fun h => hj h.symm)
    have countS : sentCount (s.tasks.set i TaskSt.sentValue)
        = sentCount s.tasks + 1 := by
      have h := countP_set_of_get (fun t => t != TaskSt.idle) s.tasks i
        TaskSt.idle TaskSt.sentValue hg
      simpa [sentCount] using h
    have countD : dvCount (s.tasks.set i TaskSt.sentValue) = dvCount s.tasks := by
      have h := countP_set_of_get (fun t => t == TaskSt.doneValue) s.tasks i
        TaskSt.idle TaskSt.sentValue hg
      simpa [dvCount] using h
    simp only [RFStep, if_pos hg]
    refine ⟨?_, ?_, ?_, ?_, ?_, ?_, ?_, ?_, ?_, ?_, ?_⟩
    · show (s.tasks.set i TaskSt.sentValue).length = n
      rw [List.length_set]
      exact hinv.hlen
    · show s.consumed.length + (s.queue ++ [imp i]).length
        = sentCount (s.tasks.set i TaskSt.sentValue)
      rw [List.length_append, countS]
      have := hinv.hcount
      simp only [List.length_singleton]
      omega
    · exact hinv.hcan
    · exact hinv.hcons
    · intro j hj hor
      by_cases hji : j = i
      · subst hji
        right
        exact List.mem_append_right _ (List.mem_singleton.mpr rfl)
      · rw [getne j hji] at hor
        rcases hinv.hprov j hj hor with h | h
        · exact Or.inl h
        · exact Or.inr (List.mem_append_left _ h)
    · intro hc j
      by_cases hji : j = i
      · subst hji
        rw [geti]
        intro h
        cases h
      · rw [getne j hji]
        exact hinv.hsent hc j
    · exact hinv.hretn
    · exact hinv.hloop
    · show s.progress = dvCount (s.tasks.set i TaskSt.sentValue)
      rw [countD]
      exact hinv.hprog
    · intro e he
      rcases List.mem_append.mp he with h | h
      · exact hinv.hqerr e h
      · refine ⟨i, hiN, ?_⟩
        rw [List.mem_singleton.mp h]
    · exact hinv.hwerr
  · simp only [RFStep, if_neg hg]
    exact hinv

theorem RFInv_sendS (imp : Nat → Option Nat) (n : Nat) (s : RFSt)
    (hinv : RFInv imp n s) (i : Nat) :
    RFInv imp n (RFStep imp s (.sendS i)) := by
  by_cases hg : s.tasks[i]? = some TaskSt.idle ∧ s.cancelled = true
  · have hgi := hg.1
    have hgc := hg.2
    have hiLT : i < s.tasks.length := lt_of_getElem?_some hgi
    have geti : (s.tasks.set i TaskSt.doneSentinel)[i]? = some TaskSt.doneSentinel :=
      List.getElem?_set_self hiLT
    have getne : ∀ j : Nat, j ≠ i →
        (s.tasks.set i TaskSt.doneSentinel)[j]? = s.tasks[j]? :=
      fun j hj => List.getElem?_set_ne (fun h => hj h.symm)
    have countS : sentCount (s.tasks.set i TaskSt.doneSentinel)
        = sentCount s.tasks + 1 := by
      have h := countP_set_of_get (fun t => t != TaskSt.idle) s.tasks i
        TaskSt.idle TaskSt.doneSentinel hgi
      simpa [sentCount] using h
    have countD : dvCount (s.tasks.set i TaskSt.doneSentinel) = dvCount s.tasks := by
      have h := countP_set_of_get (fun t => t == TaskSt.doneValue) s.tasks i
        TaskSt.idle TaskSt.doneSentinel hgi
      simpa [dvCount] using h
    simp only [RFStep, if_pos hg]
    refine ⟨?_, ?_, ?_, ?_, ?_, ?_, ?_, ?_, ?_, ?_, ?_⟩
    · show (s.tasks.set i TaskSt.doneSentinel).length = n
      rw [List.length_set]
      exact hinv.hlen
    · show s.consumed.length + (s.queue ++ [none]).length
        = sentCount (s.tasks.set i TaskSt.doneSentinel)
      rw [List.length_append, countS]
      have := hinv.hcount
      simp only [List.length_singleton]
      omega
    · exact hinv.hcan
    · intro hc
      rw [hgc] at hc
      cases hc
    · intro j hj hor
      by_cases hji : j = i
      · subst hji
        rw [geti] at hor
        rcases hor with h | h <;> cases h
      · rw [getne j hji] at hor
        rcases hinv.hprov j hj hor with h | h
        · exact Or.inl h
        · exact Or.inr (List.mem_append_left _ h)
    · intro hc
      rw [hgc] at hc
      cases hc
    · exact hinv.hretn
    · exact hinv.hloop
    · show s.progress = dvCount (s.tasks.set i TaskSt.doneSentinel)
      rw [countD]
      exact hinv.hprog
    · intro e he
      rcases List.mem_append.mp he with h | h
      · exact hinv.hqerr e h
      · cases List.mem_singleton.mp h
    · exact hinv.hwerr
  · simp only [RFStep, if_neg hg]
    exact hinv

theorem RFInv_upd (imp : Nat → Option Nat) (n : Nat) (s : RFSt)
    (hinv : RFInv imp n s) (i : Nat) :
    RFInv imp n (RFStep imp s (.upd i)) := by
  by_cases hg : s.tasks[i]? = some TaskSt.sentValue
  · have hiLT : i < s.tasks.length := lt_of_getElem?_some hg
    have geti : (s.tasks.set i TaskSt.doneValue)[i]? = some TaskSt.doneValue :=
      List.getElem?_set_self hiLT
    have getne : ∀ j : Nat, j ≠ i →
        (s.tasks.set i TaskSt.doneValue)[j]? = s.tasks[j]? :=
      fun j hj => List.getElem?_set_ne (fun h => hj h.symm)
    have countS : sentCount (s.tasks.set i TaskSt.doneValue)
        = sentCount s.tasks := by
      have h := countP_set_of_get (fun t => t != TaskSt.idle) s.tasks i
        TaskSt.sentValue TaskSt.doneValue hg
      simpa [sentCount] using h
    have countD : dvCount (s.tasks.set i TaskSt.doneValue) = dvCount s.tasks + 1 := by
      have h := countP_set_of_get (fun t => t == TaskSt.doneValue) s.tasks i
        TaskSt.sentValue TaskSt.doneValue hg
      simpa [dvCount] using h
    simp only [RFStep, if_pos hg]
    refine ⟨?_, ?_, ?_, ?_, ?_, ?_, ?_, ?_, ?_, ?_, ?_⟩
    · show (s.tasks.set i TaskSt.doneValue).length = n
      rw [List.length_set]
      exact hinv.hlen
    · show s.consumed.length + s.queue.length
        = sentCount (s.tasks.set i TaskSt.doneValue)
      rw [countS]
      exact hinv.hcount
    · exact hinv.hcan
    · exact hinv.hcons
    · intro j hj hor
      by_cases hji : j = i
      · subst hji
        exact hinv.hprov j hj (Or.inl hg)
      · rw [getne j hji] at hor
        exact hinv.hprov j hj hor
    · intro hc j
      by_cases hji : j = i
      · subst hji
        rw [geti]
        intro h
        cases h
      · rw [getne j hji]
        exact hinv.hsent hc j
    · exact hinv.hretn
    · exact hinv.hloop
    · show s.progress + 1 = dvCount (s.tasks.set i TaskSt.doneValue)
      rw [countD, hinv.hprog]
    · exact hinv.hqerr
    · exact hinv.hwerr
  · simp only [RFStep, if_neg hg]
    exact hinv

theorem RFInv_recv (imp : Nat → Option Nat) (n : Nat) (s : RFSt)
    (hinv : RFInv imp n s) :
    RFInv imp n (RFStep imp s .recv) := by
  cases hm : s.main with
  | waiting e =>
    cases hq : s.queue <;> (simp only [RFStep, hm, hq]; exact hinv)
  | retNil =>
    cases hq : s.queue <;> (simp only [RFStep, hm, hq]; exact hinv)
  | retErr e =>
    cases hq : s.queue <;> (simp only [RFStep, hm, hq]; exact hinv)
  | looping =>
    cases hq : s.queue with
    | nil =>
      simp only [RFStep, hm, hq]
      exact hinv
    | cons v q =>
      have hcf : s.cancelled = false := rf_cancelled_false hinv (by
        intro e
        rw [hm]
        exact ⟨fun h => MainSt.noConfusion h, fun h => MainSt.noConfusion h⟩)
      have harith := hinv.hcount
      rw [hq, List.length_cons] at harith
      cases v with
      | none =>
        by_cases hn : s.consumed.length + 1 = s.tasks.length
        · simp only [RFStep, hm, hq, if_pos hn]
          refine ⟨?_, ?_, ?_, ?_, ?_, ?_, ?_, ?_, ?_, ?_, ?_⟩
          · exact hinv.hlen
          · show (s.consumed ++ [none]).length + q.length = sentCount s.tasks
            rw [List.length_append]
            simp only [List.length_singleton]
            omega
          · show s.cancelled = true ↔ _
            constructor
            · intro h
              rw [hcf] at h
              cases h
            · rintro ⟨e, h | h⟩ <;> cases h
          · intro _ v hv
            rcases List.mem_append.mp hv with h | h
            · exact hinv.hcons hcf v h
            · exact List.mem_singleton.mp h
          · intro j hj hor
            rcases hinv.hprov j hj hor with h | h
            · exact Or.inl (List.mem_append_left _ h)
            · rw [hq] at h
              rcases List.mem_cons.mp h with h2 | h2
              · rw [h2]
                exact Or.inl (List.mem_append_right _ (List.mem_singleton.mpr rfl))
              · exact Or.inr h2
          · exact hinv.hsent
          · intro _
            show (s.consumed ++ [none]).length = n
            rw [List.length_append]
            simp only [List.length_singleton]
            rw [← hinv.hlen]
            omega
          · intro h
            cases h
          · exact hinv.hprog
          · intro e he
            exact hinv.hqerr e (by rw [hq]; exact List.mem_cons_of_mem _ he)
          · intro e h
            rcases h with h | h <;> cases h
        · simp only [RFStep, hm, hq, if_neg hn]
          refine ⟨?_, ?_, ?_, ?_, ?_, ?_, ?_, ?_, ?_, ?_, ?_⟩
          · exact hinv.hlen
          · show (s.consumed ++ [none]).length + q.length = sentCount s.tasks
            rw [List.length_append]
            simp only [List.length_singleton]
            omega
          · show s.cancelled = true ↔ _
            constructor
            · intro h
              rw [hcf] at h
              cases h
            · rintro ⟨e, h | h⟩ <;> cases h
          · intro _ v hv
            rcases List.mem_append.mp hv with h | h
            · exact hinv.hcons hcf v h
            · exact List.mem_singleton.mp h
          · intro j hj hor
            rcases hinv.hprov j hj hor with h | h
            · exact Or.inl (List.mem_append_left _ h)
            · rw [hq] at h
              rcases List.mem_cons.mp h with h2 | h2
              · rw [h2]
                exact Or.inl (List.mem_append_right _ (List.mem_singleton.mpr rfl))
              · exact Or.inr h2
          · exact hinv.hsent
          · intro h
            cases h
          · intro _
            show (s.consumed ++ [none]).length < n
            rw [List.length_append]
            simp only [List.length_singleton]
            have h2 : sentCount s.tasks ≤ s.tasks.length := List.countP_le_length _
            have h3 := hinv.hlen
            omega
          · exact hinv.hprog
          · intro e he
            exact hinv.hqerr e (by rw [hq]; exact List.mem_cons_of_mem _ he)
          · intro e h
            rcases h with h | h <;> cases h
      | some e =>
        simp only [RFStep, hm, hq]
        refine ⟨?_, ?_, ?_, ?_, ?_, ?_, ?_, ?_, ?_, ?_, ?_⟩
        · exact hinv.hlen
        · show (s.consumed ++ [some e]).length + q.length = sentCount s.tasks
          rw [List.length_append]
          simp only [List.length_singleton]
          omega
        · exact ⟨fun _ => ⟨e, Or.inl rfl⟩, fun _ => rfl⟩
        · intro hc
          cases hc
        · intro j hj hor
          rcases hinv.hprov j hj hor with h | h
          · exact Or.inl (List.mem_append_left _ h)
          · rw [hq] at h
            rcases List.mem_cons.mp h with h2 | h2
            · rw [h2]
              exact Or.inl (List.mem_append_right _ (List.mem_singleton.mpr rfl))
            · exact Or.inr h2
        · intro hc
          cases hc
        · intro h
          cases h
        · intro h
          cases h
        · exact hinv.hprog
        · intro e' he
          exact hinv.hqerr e' (by rw [hq]; exact List.mem_cons_of_mem _ he)
        · intro e' h
          have he' : e' = e := by
            rcases h with h | h
            · cases h
              rfl
            · cases h
          subst he'
          refine ⟨hinv.hqerr e' (by rw [hq]; exact List.mem_cons_self _ _), ?_⟩
          exact ⟨s.consumed, rfl, hinv.hcons hcf⟩

theorem RFInv_finish (imp : Nat → Option Nat) (n : Nat) (s : RFSt)
    (hinv : RFInv imp n s) :
    RFInv imp n (RFStep imp s .finish) := by
  cases hm : s.main with
  | looping =>
    simp only [RFStep, hm]
    exact hinv
  | retNil =>
    simp only [RFStep, hm]
    exact hinv
  | retErr e =>
    simp only [RFStep, hm]
    exact hinv
  | waiting e =>
    by_cases hfin : s.tasks.all TaskSt.isFin = true
    · simp only [RFStep, hm, if_pos hfin]
      refine ⟨?_, ?_, ?_, ?_, ?_, ?_, ?_, ?_, ?_, ?_, ?_⟩
      · exact hinv.hlen
      · exact hinv.hcount
      · exact ⟨fun _ => ⟨e, Or.inr rfl⟩, fun _ => hinv.hcan.mpr ⟨e, Or.inl hm⟩⟩
      · intro hc
        have h2 := hinv.hcan.mpr ⟨e, Or.inl hm⟩
        rw [hc] at h2
        cases h2
      · exact hinv.hprov
      · intro hc
        exfalso
        have h2 := hinv.hcan.mpr ⟨e, Or.inl hm⟩
        rw [hc] at h2
        cases h2
      · intro h
        cases h
      · intro h
        cases h
      · exact hinv.hprog
      · exact hinv.hqerr
      · intro e' h
        have he' : e' = e := by
          rcases h with h | h
          · cases h
          · cases h
            rfl
        subst he'
        exact hinv.hwerr e' (Or.inl hm)
    · simp only [RFStep, hm, if_neg hfin]
      exact hinv

theorem RFInv_step (imp : Nat → Option Nat) (n : Nat) (s : RFSt)
    (hinv : RFInv imp n s) (a : RFAct) :
    RFInv imp n (RFStep imp s a) := by
  cases a with
  | sendV i => exact RFInv_sendV imp n s hinv i
  | sendS i => exact RFInv_sendS imp n s hinv i
  | upd i => exact RFInv_upd imp n s hinv i
  | recv => exact RFInv_recv imp n s hinv
  | finish => exact RFInv_finish imp n s hinv

theorem RFInv_run (imp : Nat → Option Nat) (n : Nat) (sched : List RFAct) :
    RFInv imp n (RFRun imp n sched) := by
  rw [RFRun]
  have h : ∀ (l : List RFAct) (s : RFSt), RFInv imp n s →
      RFInv imp n (l.foldl (RFStep imp) s) := by
    intro l
    induction l with
    | nil => intro s hs; exact hs
    | cons a l ih =>
      intro s hs
      exact ih _ (RFInv_step imp n s hs a)
  exact h sched _ (RFInv_init imp n)

theorem rf_retNil_success {imp : Nat → Option Nat} {n : Nat} {s : RFSt}
    (hinv : RFInv imp n s) (hfin : s.tasks.all TaskSt.isFin = true)
    (hnil : s.main = MainSt.retNil) :
    (∀ i, i < n → imp i = none)
    ∧ ∀ i, i < n → s.tasks[i]? = some TaskSt.doneValue := by
  have hcf : s.cancelled = false := rf_cancelled_false hinv (by
    intro e
    rw [hnil]
    exact ⟨fun h => MainSt.noConfusion h, fun h => MainSt.noConfusion h⟩)
  have hq0 : s.queue = [] := by
    have h1 := hinv.hretn hnil
    have h2 := hinv.hcount
    have h3 : sentCount s.tasks ≤ s.tasks.length := List.countP_le_length _
    have h4 := hinv.hlen
    have h5 : s.queue.length = 0 := by omega
    exact List.eq_nil_of_length_eq_zero h5
  have hdv : ∀ i, i < n → s.tasks[i]? = some TaskSt.doneValue := by
    intro i hi
    have hiL : i < s.tasks.length := by rw [hinv.hlen]; exact hi
    have hsome : s.tasks[i]? = some (s.tasks[i]) := List.getElem?_eq_getElem hiL
    have hfin_i : TaskSt.isFin (s.tasks[i]) = true :=
      List.all_eq_true.mp hfin _ (List.getElem_mem hiL)
    have hns := hinv.hsent hcf i
    rw [hsome] at hns ⊢
    cases hel : s.tasks[i] with
    | idle =>
      rw [hel] at hfin_i
      exact absurd hfin_i (by decide)
    | sentValue =>
      rw [hel] at hfin_i
      exact absurd hfin_i (by decide)
    | doneSentinel =>
      rw [hel] at hns
      exact absurd rfl hns
    | doneValue => rfl
  refine ⟨?_, hdv⟩
  intro i hi
  rcases hinv.hprov i hi (Or.inr (hdv i hi)) with h | h
  · exact hinv.hcons hcf _ h
  · rw [hq0] at h
    cases h

theorem rf_no_deadlock {imp : Nat → Option Nat} {n : Nat} {s : RFSt}
    (hinv : RFInv imp n s) (hnt : ¬ RFTerminal s) :
    ∃ a, RFEnabled s a := by
  by_cases hidle : ∃ i : Nat, s.tasks[i]? = some TaskSt.idle
  · obtain ⟨i, hi⟩ := hidle
    exact ⟨.sendV i, hi⟩
  by_cases hsv : ∃ i : Nat, s.tasks[i]? = some TaskSt.sentValue
  · obtain ⟨i, hi⟩ := hsv
    exact ⟨.upd i, hi⟩
  push_neg at hidle hsv
  have hfin : s.tasks.all TaskSt.isFin = true := by
    rw [List.all_eq_true]
    intro t ht
    obtain ⟨i, hiL, hel⟩ := List.mem_iff_getElem.mp ht
    have hsome : s.tasks[i]? = some t := by
      rw [List.getElem?_eq_getElem hiL, hel]
    cases t with
    | idle => exact absurd hsome (hidle i)
    | sentValue => exact absurd hsome (hsv i)
    | doneSentinel => rfl
    | doneValue => rfl
  cases hm : s.main with
  | looping =>
    refine ⟨.recv, hm, ?_⟩
    have h1 := hinv.hloop hm
    have h2 := hinv.hcount
    have h4 := hinv.hlen
    have hsc : sentCount s.tasks = s.tasks.length := by
      rw [sentCount, List.countP_eq_length]
      intro t ht
      obtain ⟨i, hiL, hel⟩ := List.mem_iff_getElem.mp ht
      have hsome : s.tasks[i]? = some t := by
        rw [List.getElem?_eq_getElem hiL, hel]
      cases t with
      | idle => exact absurd hsome (hidle i)
      | sentValue => exact absurd hsome (hsv i)
      | doneSentinel => rfl
      | doneValue => rfl
    intro hqnil
    rw [hqnil] at h2
    simp only [List.length_nil, Nat.add_zero] at h2
    omega
  | waiting e => exact ⟨.finish, ⟨e, hm⟩, hfin⟩
  | retNil =>
    exact absurd ⟨by rw [hm]; rfl, hfin⟩ hnt
  | retErr e =>
    exact absurd ⟨by rw [hm]; rfl, hfin⟩ hnt

/-- Claim C6: the cancelled-with-no-error sentinel is used only to
unblock the completion-aggregation loop and is never mistaken for success
of the underlying work: in every complete run of `RestoreFiles` that
returns nil, every file's import ran and returned no error — every task
reported its own import result and ticked the progress channel (state
`doneValue`), and no task took the sentinel path. -/
theorem restoreFiles_nil_only_if_success (imp : Nat → Option Nat) (n : Nat)
    (sched : List RFAct) (hterm : RFTerminal (RFRun imp n sched))
    (hnil : (RFRun imp n sched).main = MainSt.retNil) :
    (∀ i, i < n → imp i = none)
    ∧ ∀ i, i < n → (RFRun imp n sched).tasks[i]? = some TaskSt.doneValue :=
  rf_retNil_success (RFInv_run imp n sched) hterm.2 hnil

theorem restoreFiles_nil_only_if_success_witness :
    ((∀ i, i < 1 → (fun _ => (none : Option Nat)) i = none)
      ∧ ∀ i, i < 1 →
        (RFRun (fun _ => none) 1 [.sendV 0, .recv, .upd 0]).tasks[i]?
          = some TaskSt.doneValue) :=
  restoreFiles_nil_only_if_success (fun _ => none) 1 [.sendV 0, .recv, .upd 0]
    (by decide) (by decide)

/-- Claim C2 (amended): for every segment set with at least one failing
segment import: (no-deadlock) in any reachable non-terminal state of the machine
some action is enabled — every dispatched task produces exactly one
completion signal and channel sends never block (the buffer holds one slot
per file), so the run can always progress to completion; and every
complete run returns the FIRST received failure's error, after triggering
the shared cancellation.  The aggregation loop consumes signals only up to
that first failure; signals of tasks that finish later stay buffered and
are not consumed (see the counterexample), which is the respect in which
the original claim is amended. -/
theorem restoreFiles_failure_behavior (imp : Nat → Option Nat) (n : Nat)
    (sched : List RFAct) (hfail : ∃ i, i < n ∧ imp i ≠ none) :
    (¬ RFTerminal (RFRun imp n sched) → ∃ a, RFEnabled (RFRun imp n sched) a)
    ∧ (RFTerminal (RFRun imp n sched) →
      ∃ e pre, (RFRun imp n sched).main = MainSt.retErr e
        ∧ (RFRun imp n sched).cancelled = true
        ∧ (∃ i, i < n ∧ imp i = some e)
        ∧ (RFRun imp n sched).consumed = pre ++ [some e]
        ∧ ∀ v ∈ pre, v = none) := by
  have hinv := RFInv_run imp n sched
  constructor
  · intro hnt
    exact rf_no_deadlock hinv hnt
  · intro hterm
    rcases hterm with ⟨hret, hfin⟩
    cases hm : (RFRun imp n sched).main with
    | looping => rw [hm] at hret; simp [MainSt.returned] at hret
    | waiting e => rw [hm] at hret; simp [MainSt.returned] at hret
    | retNil =>
      exfalso
      obtain ⟨i, hi, hne⟩ := hfail
      exact hne ((rf_retNil_success hinv hfin hm).1 i hi)
    | retErr e =>
      obtain ⟨hprovE, pre, hpre, hprenone⟩ := hinv.hwerr e (Or.inr hm)
      exact ⟨e, pre, rfl, hinv.hcan.mpr ⟨e, Or.inr hm⟩, hprovE, hpre, hprenone⟩

theorem restoreFiles_failure_behavior_witness :
    (¬ RFTerminal (RFRun (fun i => if i = 0 then some 5 else none) 1
        [.sendV 0, .recv, .upd 0, .finish])
      → ∃ a, RFEnabled (RFRun (fun i => if i = 0 then some 5 else none) 1
        [.sendV 0, .recv, .upd 0, .finish]) a)
    ∧ (RFTerminal (RFRun (fun i => if i = 0 then some 5 else none) 1
        [.sendV 0, .recv, .upd 0, .finish]) →
      ∃ e pre, (RFRun (fun i => if i = 0 then some 5 else none) 1
          [.sendV 0, .recv, .upd 0, .finish]).main = MainSt.retErr e
        ∧ (RFRun (fun i => if i = 0 then some 5 else none) 1
          [.sendV 0, .recv, .upd 0, .finish]).cancelled = true
        ∧ (∃ i, i < 1 ∧ (if i = 0 then some 5 else none) = some e)
        ∧ (RFRun (fun i => if i = 0 then some 5 else none) 1
          [.sendV 0, .recv, .upd 0, .finish]).consumed = pre ++ [some e]
        ∧ ∀ v ∈ pre, v = none) :=
  restoreFiles_failure_behavior (fun i => if i = 0 then some 5 else none) 1
    [.sendV 0, .recv, .upd 0, .finish] ⟨0, by decide, by decide⟩

/-- Claim C2, counterexample: the aggregation loop does not consume every
dispatched task's completion signal.  Two files, file 0's import failing:
in the exhibited complete run both tasks produced their one signal
(`sentCount = 2`) and the call returned the failure, but the loop consumed
only one value; the second signal stays unconsumed in the buffer. -/
theorem restoreFiles_consume_all_cex :
    RFTerminal (RFRun (fun i => if i = 0 then some 1 else none) 2
      [.sendV 0, .recv, .upd 0, .sendV 1, .upd 1, .finish])
    ∧ (RFRun (fun i => if i = 0 then some 1 else none) 2
      [.sendV 0, .recv, .upd 0, .sendV 1, .upd 1, .finish]).main = MainSt.retErr 1
    ∧ sentCount (RFRun (fun i => if i = 0 then some 1 else none) 2
      [.sendV 0, .recv, .upd 0, .sendV 1, .upd 1, .finish]).tasks = 2
    ∧ (RFRun (fun i => if i = 0 then some 1 else none) 2
      [.sendV 0, .recv, .upd 0, .sendV 1, .upd 1, .finish]).consumed.length = 1
    ∧ (RFRun (fun i => if i = 0 then some 1 else none) 2
      [.sendV 0, .recv, .upd 0, .sendV 1, .upd 1, .finish]).queue ≠ [] := by
  decide

/-- Claim C5 (amended): in every complete run of `RestoreFiles` the
progress counter equals the number of tasks that reported their import
result and ticked `updateCh` — exactly one tick per reporting task, and no
tick for a task that took the cancelled sentinel path; in particular when
every import succeeds the call returns nil and the counter is incremented
exactly once per segment.  The original claim's "a segment whose import
fails does not increment the counter" is refuted by the counterexample: a
failing task that reports its result ticks `updateCh` too. -/
theorem restoreFiles_progress (imp : Nat → Option Nat) (n : Nat)
    (sched : List RFAct) (hterm : RFTerminal (RFRun imp n sched)) :
    (RFRun imp n sched).progress = dvCount (RFRun imp n sched).tasks
    ∧ ((∀ i, i < n → imp i = none) →
      (RFRun imp n sched).main = MainSt.retNil
        ∧ (RFRun imp n sched).progress = n) := by
  have hinv := RFInv_run imp n sched
  refine ⟨hinv.hprog, ?_⟩
  intro hall
  rcases hterm with ⟨hret, hfin⟩
  have hnil : (RFRun imp n sched).main = MainSt.retNil := by
    cases hm : (RFRun imp n sched).main with
    | looping => rw [hm] at hret; simp [MainSt.returned] at hret
    | waiting e => rw [hm] at hret; simp [MainSt.returned] at hret
    | retNil => rfl
    | retErr e =>
      exfalso
      obtain ⟨⟨i, hi, himp⟩, _⟩ := hinv.hwerr e (Or.inr hm)
      rw [hall i hi] at himp
      cases himp
  refine ⟨hnil, ?_⟩
  have hdv := (rf_retNil_success hinv hfin hnil).2
  have hcp : List.countP (fun t => t == TaskSt.doneValue)
      (RFRun imp n sched).tasks = (RFRun imp n sched).tasks.length := by
    rw [List.countP_eq_length]
    intro t ht
    obtain ⟨i, hiL, hel⟩ := List.mem_iff_getElem.mp ht
    have hi : i < n := by rw [← hinv.hlen]; exact hiL
    have h2 := hdv i hi
    rw [List.getElem?_eq_getElem hiL, hel] at h2
    rw [Option.some_inj.mp h2]
    rfl
  rw [hinv.hprog, dvCount, hcp, hinv.hlen]

theorem restoreFiles_progress_witness :
    ((RFRun (fun _ => (none : Option Nat)) 2
        [.sendV 0, .sendV 1, .recv, .recv, .upd 0, .upd 1]).progress
      = dvCount (RFRun (fun _ => none) 2
        [.sendV 0, .sendV 1, .recv, .recv, .upd 0, .upd 1]).tasks)
    ∧ ((∀ i, i < 2 → (fun _ => (none : Option Nat)) i = none) →
      (RFRun (fun _ => none) 2
        [.sendV 0, .sendV 1, .recv, .recv, .upd 0, .upd 1]).main = MainSt.retNil
      ∧ (RFRun (fun _ => none) 2
        [.sendV 0, .sendV 1, .recv, .recv, .upd 0, .upd 1]).progress = 2) :=
  restoreFiles_progress (fun _ => none) 2
    [.sendV 0, .sendV 1, .recv, .recv, .upd 0, .upd 1] (by decide)

/-- Claim C5, counterexample: a segment whose import fails DOES increment
the external progress counter.  One file whose import fails: in the
exhibited complete run the task reports its failure on `errCh` and then
ticks `updateCh`, so the counter ends at 1 although the import failed. -/
theorem restoreFiles_failed_import_progress_cex :
    RFTerminal (RFRun (fun _ => some 1) 1 [.sendV 0, .recv, .upd 0, .finish])
    ∧ (RFRun (fun _ => some 1) 1
      [.sendV 0, .recv, .upd 0, .finish]).main = MainSt.retErr 1
    ∧ (RFRun (fun _ => some 1) 1
      [.sendV 0, .recv, .upd 0, .finish]).progress = 1
    ∧ (fun _ => (some 1 : Option Nat)) 0 ≠ none := by
  decide

/-! ### Checksum validation (`Client.ValidateChecksum`, claim C1)

`ValidateChecksum` (src/pkg/restore/client.go lines 367-443) spawns a
producer goroutine that submits one worker per table into a pool (width
64); each worker obtains a timestamp, runs the checksum executor, and
compares digest / key count / byte count against the snapshot-time values;
on mismatch it sends a (non-nil) error into the UNBUFFERED channel
`errCh`, on success it ticks `updateCh`; after `wg.Wait()` the producer
closes `errCh`.  The main goroutine ranges over `errCh` and returns the
first received error, or nil when the channel closes.  We embed the
machine for runs in which the per-table RPCs succeed and only the
value comparison can fail, which is claim C1's scenario; the error value
is represented by the index of the table whose validation produced it. -/

structure ChecksumTriple where
  crc64Xor : Nat
  totalKvs : Nat
  totalBytes : Nat
  deriving DecidableEq, Repr

/-- Embeds the comparison of `ValidateChecksum` (lines 413-415): the
computed response differs from the stored snapshot-time values in the
digest, the total key count, or the total byte count. -/
def mismatch (stored computed : ChecksumTriple) : Bool :=
  decide (computed.crc64Xor ≠ stored.crc64Xor)
    || decide (computed.totalKvs ≠ stored.totalKvs)
    || decide (computed.totalBytes ≠ stored.totalBytes)

inductive VTaskSt where
  | idle
  | sendErr
  | sendUpd
  | done
  deriving DecidableEq, Repr

inductive VMainSt where
  | looping
  | retNil
  | retErr (i : Nat)
  deriving DecidableEq, Repr

structure VSt where
  tasks : List VTaskSt
  main : VMainSt
  computedCount : Nat
  deriving DecidableEq, Repr

inductive VAct where
  | compute (i : Nat)
  | recvErr (i : Nat)
  | updDone (i : Nat)
  | closeCh
  deriving DecidableEq, Repr

/-- One atomic step of the `ValidateChecksum` machine over the table list
`tbl` (per table: stored snapshot triple, cluster-computed triple).
`compute i`: worker `i` runs its checksum computation and either moves to
the blocking unbuffered `errCh` send (mismatch) or to the `updateCh` tick
(match); `recvErr i`: the main loop receives worker `i`'s error — being
the first error received, the loop returns it; `updDone i`: worker `i`'s
progress tick is consumed and it finishes; `closeCh`: all workers done,
`wg.Wait()` returns, `errCh` closes and the main loop returns nil. -/
def VStep (tbl : List (ChecksumTriple × ChecksumTriple)) (s : VSt) : VAct → VSt
  | .compute i =>
    match s.tasks[i]?, tbl[i]? with
    | some VTaskSt.idle, some p =>
      { s with
        tasks := s.tasks.set i
          (if mismatch p.1 p.2 then VTaskSt.sendErr else VTaskSt.sendUpd)
        computedCount := s.computedCount + 1 }
    | _, _ => s
  | .recvErr i =>
    if s.tasks[i]? = some VTaskSt.sendErr ∧ s.main = VMainSt.looping then
      { s with tasks := s.tasks.set i VTaskSt.done, main := VMainSt.retErr i }
    else s
  | .updDone i =>
    if s.tasks[i]? = some VTaskSt.sendUpd then
      { s with tasks := s.tasks.set i VTaskSt.done }
    else s
  | .closeCh =>
    if s.main = VMainSt.looping ∧ s.tasks.all (fun t => t == VTaskSt.done) = true then
      { s with main := VMainSt.retNil }
    else s

def VInit (tbl : List (ChecksumTriple × ChecksumTriple)) : VSt :=
  { tasks := List.replicate tbl.length VTaskSt.idle,
    main := VMainSt.looping, computedCount := 0 }

def VRun (tbl : List (ChecksumTriple × ChecksumTriple)) (sched : List VAct) : VSt :=
  sched.foldl (VStep tbl) (VInit tbl)

/-- Invariant of the `ValidateChecksum` machine. -/
structure VInv (tbl : List (ChecksumTriple × ChecksumTriple)) (s : VSt) : Prop where
  hlen : s.tasks.length = tbl.length
  herr : ∀ i : Nat, s.tasks[i]? = some VTaskSt.sendErr →
    ∃ p, tbl[i]? = some p ∧ mismatch p.1 p.2 = true
  hupd : ∀ i : Nat, s.tasks[i]? = some VTaskSt.sendUpd →
    ∃ p, tbl[i]? = some p ∧ mismatch p.1 p.2 = false
  hloopdone : (s.main = VMainSt.looping ∨ s.main = VMainSt.retNil) →
    ∀ i : Nat, s.tasks[i]? = some VTaskSt.done →
    ∀ p, tbl[i]? = some p → mismatch p.1 p.2 = false
  hmerr : ∀ i : Nat, s.main = VMainSt.retErr i →
    ∃ p, tbl[i]? = some p ∧ mismatch p.1 p.2 = true
  hretall : s.main = VMainSt.retNil →
    s.tasks.all (fun t => t == VTaskSt.done) = true
  hcomp : s.computedCount = s.tasks.countP (fun t => t != VTaskSt.idle)

theorem VInv_init (tbl : List (ChecksumTriple × ChecksumTriple)) :
    VInv tbl (VInit tbl) := by
  refine ⟨?_, ?_, ?_, ?_, ?_, ?_, ?_⟩
  · simp [VInit]
  · intro i h
    simp only [VInit, List.getElem?_replicate] at h
    by_cases hc : i < tbl.length <;> simp [hc] at h
  · intro i h
    simp only [VInit, List.getElem?_replicate] at h
    by_cases hc : i < tbl.length <;> simp [hc] at h
  · intro _ i h
    simp only [VInit, List.getElem?_replicate] at h
    by_cases hc : i < tbl.length <;> simp [hc] at h
  · intro i h
    simp only [VInit] at h
    cases h
  · intro h
    simp only [VInit] at h
    cases h
  · simp only [VInit]
    rw [eq_comm, List.countP_eq_zero]
    intro a ha
    rw [List.eq_of_mem_replicate ha]
    decide

theorem v_all_done_at {s : VSt}
    (h : s.tasks.all (fun t => t == VTaskSt.done) = true)
    {i : Nat} {t : VTaskSt} (ht : s.tasks[i]? = some t) : t = VTaskSt.done := by
  have hiL := lt_of_getElem?_some ht
  have hmem : t ∈ s.tasks := by
    have h2 := List.getElem?_eq_getElem hiL
    rw [h2] at ht
    rw [← Option.some_inj.mp ht]
    exact List.getElem_mem hiL
  have h3 := List.all_eq_true.mp h t hmem
  rwa [beq_iff_eq] at h3

theorem VInv_step (tbl : List (ChecksumTriple × ChecksumTriple)) (s : VSt)
    (hinv : VInv tbl s) (a : VAct) : VInv tbl (VStep tbl s a) := by
  cases a with
  | compute i =>
    cases ht : s.tasks[i]? with
    | none =>
      cases hp : tbl[i]? <;> (simp only [VStep, ht, hp]; exact hinv)
    | some t =>
      cases t with
      | sendErr => cases hp : tbl[i]? <;> (simp only [VStep, ht, hp]; exact hinv)
      | sendUpd => cases hp : tbl[i]? <;> (simp only [VStep, ht, hp]; exact hinv)
      | done => cases hp : tbl[i]? <;> (simp only [VStep, ht, hp]; exact hinv)
      | idle =>
        cases hp : tbl[i]? with
        | none => simp only [VStep, ht, hp]; exact hinv
        | some p =>
          simp only [VStep, ht, hp]
          have hiL : i < s.tasks.length := lt_of_getElem?_some ht
          have geti : (s.tasks.set i
              (if mismatch p.1 p.2 then VTaskSt.sendErr else VTaskSt.sendUpd))[i]?
              = some (if mismatch p.1 p.2 then VTaskSt.sendErr else VTaskSt.sendUpd) :=
            List.getElem?_set_self hiL
          have getne : ∀ j : Nat, j ≠ i →
              (s.tasks.set i
                (if mismatch p.1 p.2 then VTaskSt.sendErr else VTaskSt.sendUpd))[j]?
              = s.tasks[j]? :=
            fun j hj => List.getElem?_set_ne (fun h => hj h.symm)
          refine ⟨?_, ?_, ?_, ?_, ?_, ?_, ?_⟩
          · show (s.tasks.set i _).length = tbl.length
            rw [List.length_set]
            exact hinv.hlen
          · intro j hj
            by_cases hji : j = i
            · subst hji
              rw [geti] at hj
              cases hmis : mismatch p.1 p.2 with
              | true => exact ⟨p, hp, hmis⟩
              | false =>
                rw [hmis] at hj
                simp at hj
            · rw [getne j hji] at hj
              exact hinv.herr j hj
          · intro j hj
            by_cases hji : j = i
            · subst hji
              rw [geti] at hj
              cases hmis : mismatch p.1 p.2 with
              | false => exact ⟨p, hp, hmis⟩
              | true =>
                rw [hmis] at hj
                simp at hj
            · rw [getne j hji] at hj
              exact hinv.hupd j hj
          · intro hmain j hj
            by_cases hji : j = i
            · subst hji
              rw [geti] at hj
              cases hmis : mismatch p.1 p.2 <;> (rw [hmis] at hj; simp at hj)
            · rw [getne j hji] at hj
              exact hinv.hloopdone hmain j hj
          · exact hinv.hmerr
          · intro hmain
            exfalso
            have hall := hinv.hretall hmain
            have := v_all_done_at hall ht
            cases this
          · show s.computedCount + 1 = _
            cases hmis : mismatch p.1 p.2 with
            | true =>
              rw [if_pos rfl]
              have h := countP_set_of_get (fun t => t != VTaskSt.idle) s.tasks i
                VTaskSt.idle VTaskSt.sendErr ht
              simp at h
              rw [hinv.hcomp]
              dsimp only
              omega
            | false =>
              rw [if_neg (by decide)]
              have h := countP_set_of_get (fun t => t != VTaskSt.idle) s.tasks i
                VTaskSt.idle VTaskSt.sendUpd ht
              simp at h
              rw [hinv.hcomp]
              dsimp only
              omega
  | recvErr i =>
    by_cases hg : s.tasks[i]? = some VTaskSt.sendErr ∧ s.main = VMainSt.looping
    · have hgi := hg.1
      have hiL : i < s.tasks.length := lt_of_getElem?_some hgi
      have geti : (s.tasks.set i VTaskSt.done)[i]? = some VTaskSt.done :=
        List.getElem?_set_self hiL
      have getne : ∀ j : Nat, j ≠ i →
          (s.tasks.set i VTaskSt.done)[j]? = s.tasks[j]? :=
        fun j hj => List.getElem?_set_ne (fun h => hj h.symm)
      simp only [VStep, if_pos hg]
      refine ⟨?_, ?_, ?_, ?_, ?_, ?_, ?_⟩
      · show (s.tasks.set i VTaskSt.done).length = tbl.length
        rw [List.length_set]
        exact hinv.hlen
      · intro j hj
        by_cases hji : j = i
        · subst hji
          rw [geti] at hj
          cases hj
        · rw [getne j hji] at hj
          exact hinv.herr j hj
      · intro j hj
        by_cases hji : j = i
        · subst hji
          rw [geti] at hj
          cases hj
        · rw [getne j hji] at hj
          exact hinv.hupd j hj
      · intro hmain
        exfalso
        rcases hmain with h | h <;> cases h
      · intro j hj
        have hji : j = i := by
          cases hj
          rfl
        subst hji
        exact hinv.herr j hg.1
      · intro hmain
        cases hmain
      · show s.computedCount = _
        have h := countP_set_of_get (fun t => t != VTaskSt.idle) s.tasks i
          VTaskSt.sendErr VTaskSt.done hgi
        simp at h
        rw [hinv.hcomp]
        dsimp only
        omega
    · simp only [VStep, if_neg hg]
      exact hinv
  | updDone i =>
    by_cases hg : s.tasks[i]? = some VTaskSt.sendUpd
    · have hiL : i < s.tasks.length := lt_of_getElem?_some hg
      have geti : (s.tasks.set i VTaskSt.done)[i]? = some VTaskSt.done :=
        List.getElem?_set_self hiL
      have getne : ∀ j : Nat, j ≠ i →
          (s.tasks.set i VTaskSt.done)[j]? = s.tasks[j]? :=
        fun j hj => List.getElem?_set_ne (fun h => hj h.symm)
      simp only [VStep, if_pos hg]
      refine ⟨?_, ?_, ?_, ?_, ?_, ?_, ?_⟩
      · show (s.tasks.set i VTaskSt.done).length = tbl.length
        rw [List.length_set]
        exact hinv.hlen
      · intro j hj
        by_cases hji : j = i
        · subst hji
          rw [geti] at hj
          cases hj
        · rw [getne j hji] at hj
          exact hinv.herr j hj
      · intro j hj
        by_cases hji : j = i
        · subst hji
          rw [geti] at hj
          cases hj
        · rw [getne j hji] at hj
          exact hinv.hupd j hj
      · intro hmain j hj
        by_cases hji : j = i
        · subst hji
          obtain ⟨p0, hp0, hmis0⟩ := hinv.hupd j hg
          intro p hp
          rw [hp0] at hp
          rw [← Option.some_inj.mp hp]
          exact hmis0
        · rw [getne j hji] at hj
          exact hinv.hloopdone hmain j hj
      · exact hinv.hmerr
      · intro hmain
        exfalso
        have hall := hinv.hretall hmain
        have := v_all_done_at hall hg
        cases this
      · show s.computedCount = _
        have h := countP_set_of_get (fun t => t != VTaskSt.idle) s.tasks i
          VTaskSt.sendUpd VTaskSt.done hg
        simp at h
        rw [hinv.hcomp]
        dsimp only
        omega
    · simp only [VStep, if_neg hg]
      exact hinv
  | closeCh =>
    by_cases hg : s.main = VMainSt.looping
        ∧ s.tasks.all (fun t => t == VTaskSt.done) = true
    · simp only [VStep, if_pos hg]
      refine ⟨hinv.hlen, hinv.herr, hinv.hupd, ?_, ?_, ?_, hinv.hcomp⟩
      · intro _ j hj
        exact hinv.hloopdone (Or.inl hg.1) j hj
      · intro j hj
        cases hj
      · intro _
        exact hg.2
    · simp only [VStep, if_neg hg]
      exact hinv

theorem VInv_run (tbl : List (ChecksumTriple × ChecksumTriple))
    (sched : List VAct) : VInv tbl (VRun tbl sched) := by
  rw [VRun]
  have h : ∀ (l : List VAct) (s : VSt), VInv tbl s →
      VInv tbl (l.foldl (VStep tbl) s) := by
    intro l
    induction l with
    | nil => intro s hs; exact hs
    | cons a l ih =>
      intro s hs
      exact ih _ (VInv_step tbl s hs a)
  exact h sched _ (VInv_init tbl)

/-- Claim C1 (amended): when exactly one table's stored checksum differs
from the cluster-computed value, every returning run of
`ValidateChecksum` returns exactly one checksum-mismatch error, namely the
error produced by that table's validation — but NOT necessarily after
computing checksums for all N tables: the loop returns the first error it
receives, and validations still pending at that moment are abandoned (see
the counterexample).  The returned error value does not name the table in
its message (the table is only logged); it is attributable to the table
only as the value that table's worker sent. -/
theorem validateChecksum_single_mismatch
    (tbl : List (ChecksumTriple × ChecksumTriple)) (sched : List VAct)
    (m : Nat) (pm : ChecksumTriple × ChecksumTriple)
    (hm : tbl[m]? = some pm) (hmis : mismatch pm.1 pm.2 = true)
    (huniq : ∀ j, j < tbl.length → j ≠ m →
      mismatch (tbl.getD j (⟨0, 0, 0⟩, ⟨0, 0, 0⟩)).1
        (tbl.getD j (⟨0, 0, 0⟩, ⟨0, 0, 0⟩)).2 = false)
    (hret : (VRun tbl sched).main ≠ VMainSt.looping) :
    (VRun tbl sched).main = VMainSt.retErr m := by
  have hinv := VInv_run tbl sched
  cases hmain : (VRun tbl sched).main with
  | looping => exact absurd hmain hret
  | retNil =>
    exfalso
    have hall := hinv.hretall hmain
    have hmL : m < tbl.length := lt_of_getElem?_some hm
    have hmT : m < (VRun tbl sched).tasks.length := by
      rw [hinv.hlen]
      exact hmL
    have hsome : (VRun tbl sched).tasks[m]? = some ((VRun tbl sched).tasks[m]) :=
      List.getElem?_eq_getElem hmT
    have hdone := v_all_done_at hall hsome
    rw [hdone] at hsome
    have hfalse := hinv.hloopdone (Or.inr hmain) m hsome pm hm
    rw [hmis] at hfalse
    cases hfalse
  | retErr j =>
    obtain ⟨p, hp, hmisj⟩ := hinv.hmerr j hmain
    have hjL : j < tbl.length := lt_of_getElem?_some hp
    by_cases hjm : j = m
    · rw [hjm]
    · exfalso
      have hu := huniq j hjL hjm
      have hgd : tbl.getD j (⟨0, 0, 0⟩, ⟨0, 0, 0⟩) = p := by
        rw [List.getD_eq_getElem?_getD, hp]
        rfl
      rw [hgd, hmisj] at hu
      cases hu

theorem validateChecksum_single_mismatch_witness :
    (VRun [(⟨10, 5, 100⟩, ⟨10, 5, 100⟩), (⟨20, 7, 140⟩, ⟨21, 7, 140⟩)]
      [.compute 0, .updDone 0, .compute 1, .recvErr 1]).main
      = VMainSt.retErr 1 :=
  validateChecksum_single_mismatch
    [(⟨10, 5, 100⟩, ⟨10, 5, 100⟩), (⟨20, 7, 140⟩, ⟨21, 7, 140⟩)]
    [.compute 0, .updDone 0, .compute 1, .recvErr 1]
    1 (⟨20, 7, 140⟩, ⟨21, 7, 140⟩) (by decide) (by decide) (by decide) (by decide)

/-- Claim C1, counterexample: the error is not reported only after every
table's validation completed.  With the spec's own example — T1 stored and
computed {10,5,100}, T2 stored {20,7,140} computed {21,7,140} — there is a
complete run in which T2's worker computes and reports first: the call
returns T2's mismatch error while `computedCount = 1` of 2, i.e. T1's
checksum was never computed, refuting fail-at-end as stated. -/
theorem validateChecksum_early_error_cex :
    (VRun [(⟨10, 5, 100⟩, ⟨10, 5, 100⟩), (⟨20, 7, 140⟩, ⟨21, 7, 140⟩)]
      [.compute 1, .recvErr 1]).main = VMainSt.retErr 1
    ∧ (VRun [(⟨10, 5, 100⟩, ⟨10, 5, 100⟩), (⟨20, 7, 140⟩, ⟨21, 7, 140⟩)]
      [.compute 1, .recvErr 1]).computedCount = 1
    ∧ ([(⟨10, 5, 100⟩, ⟨10, 5, 100⟩), (⟨20, 7, 140⟩, ⟨21, 7, 140⟩)]
        : List (ChecksumTriple × ChecksumTriple)).length = 2 := by
  decide

end BR
